import Mathlib

/-!
Verification of the size-constrained parameter search in
`video_to_webp_with_size_restriction.py` (class `VideoToWebPConverter`).

Embedding conventions:
* Byte sizes are `WithTop Nat`: a finite byte count, or `⊤` for Python's
  `float('inf')` sentinel used when an encode attempt yields no buffer.
* Python ints are `Int`; Python's floor division `//` by the positive
  constant `2` is `Int` division `/` (`Int.ediv`, which floors for a
  positive divisor), and `int(x / 2)` for a nonnegative `x` is likewise
  floor division.  `int(i * (total - 1) / (count - 1))` (exact float
  quotient truncated toward zero, here nonnegative, hence floored) is
  modelled as exact natural floor division.
* The encode oracle `_create_webp_buffer(frames, quality, fps)` is an
  abstract fallible function `enc : List α → Int → Option β` together with
  a size observer `bsize : β → Nat`; `fps` is itself a function of the
  frame list and the fixed clip duration, so it is absorbed into `enc`.
  A failed encode is `none`, exactly the `buffer`-is-falsy path of the
  source.
* The effectful pieces of `convert` (the `nonlocal successful_buffer`
  cell and the per-trial encodes) are explicit state passing over
  `SState`, which additionally records a trace of observable events
  (each encode trial, and each `_binary_search` invocation with the
  search space it was given and the outcome it returned).
* The `while` loop of `_binary_search` is fuel-indexed; an exhausted
  fuel is the `none` outcome, and a loop that returns `none` outcome at
  every fuel is a diverging loop of the source.
-/

namespace VideoToWebP

/-- A measured output size: a finite byte count, or `⊤` for `float('inf')`. -/
abbrev Size := WithTop Nat

/-- The fallback stages of `convert` (A, .., E and the final
unconditional single-frame quality-1 trial `F`). -/
inductive Stage where
  | A | B | C | D | E | F
deriving DecidableEq

/-- Observable events of a `convert` run: an encode trial (stage, frames
given to the encoder, quality, encoder result, and the `successful_buffer`
cell right after the trial), or a `_binary_search` invocation (stage,
search space bounds, returned outcome). -/
inductive Ev (α β : Type) where
  | trial (st : Stage) (frames : List α) (q : Int) (res : Option β) (heldAfter : Option β)
  | search (st : Stage) (low high : Int) (outcome : Option (Int × Size))
deriving DecidableEq

/-- The mutable state threaded through a `convert` run: the
`successful_buffer` cell and the event trace so far. -/
structure SState (α β : Type) where
  held : Option β
  evs : List (Ev α β)
deriving DecidableEq

/-- The midpoint of one `_binary_search` iteration (source lines 75–77):
`mid = (low + high) // 2`, bumped to `1` when it is `0`.  `Int` division
`/` is `Int.ediv`, which agrees with Python's floor division `//` for the
positive divisor `2`. -/
def loop_mid (low high : Int) : Int :=
  if (low + high) / 2 = 0 then 1 else (low + high) / 2

/-- Loop of `_binary_search` (source lines 74–98), fuel-indexed.
Returns (outcome, list of values passed to the evaluator, final state);
outcome `none` means the fuel ran out before the loop finished,
`some none` is the source's `(None, None)` return, and `some (some (v, s))`
is a returned `(best_value, best_size)` pair. -/
def _binary_search_loop {σ : Type} (ev : σ → Int → σ × Size) (tmin tmax : Nat) :
    Nat → Int → Int → Option Int → Size → σ → Option (Option (Int × Size)) × List Int × σ
  | 0, _, _, _, _, s => (none, [], s)
  | fuel+1, low, high, best_value, best_size, s =>
    if low > high then
      (some (match best_value with
             | some v => if best_size ≤ (tmax : Size) then some (v, best_size) else none
             | none => none), [], s)
    else
      let mid := loop_mid low high
      let p := ev s mid
      if (tmin : Size) ≤ p.2 ∧ p.2 ≤ (tmax : Size) then
        (some (some (mid, p.2)), [mid], p.1)
      else if p.2 < (tmin : Size) then
        let r := _binary_search_loop ev tmin tmax fuel (mid+1) high (some mid) p.2 p.1
        (r.1, mid :: r.2.1, r.2.2)
      else
        let r := _binary_search_loop ev tmin tmax fuel low (mid-1) best_value best_size p.1
        (r.1, mid :: r.2.1, r.2.2)

/-- `_binary_search` (source lines 52–98): the `low > high` early return,
then the search loop starting from `best_value = None`,
`best_size = float('inf')`. -/
def _binary_search {σ : Type} (ev : σ → Int → σ × Size) (tmin tmax : Nat)
    (low high : Int) (fuel : Nat) (s : σ) :
    Option (Option (Int × Size)) × List Int × σ :=
  if low > high then (some none, [], s)
  else _binary_search_loop ev tmin tmax fuel low high none ⊤ s

/-- `_select_indices` (source lines 101–114).  The comprehension
`[int(i * (total_frames - 1) / (count - 1)) for i in range(count)]`
is exact floor division on naturals (all quantities are nonnegative in
this branch). -/
def _select_indices (total_frames count : Int) : List Nat :=
  if count ≤ 0 ∨ total_frames ≤ 0 then []
  else if count = 1 then [0]
  else if count ≥ total_frames then List.range total_frames.toNat
  else (List.range count.toNat).map
    (fun i => i * (total_frames.toNat - 1) / (count.toNat - 1))

/-- The `select_frames` helper closed over by `convert` (source lines
225–231).  The `count == 1` branch is `[source_frames[0]]` in the source,
which presupposes a nonempty list (every reachable call site passes one);
`take 1` agrees with it there.  Indexing `source_frames[i]` is via `get?`;
every produced index is in bounds in the final branch, so the `filterMap`
drops nothing. -/
def select_frames {α : Type} (source_frames : List α) (count : Int) : List α :=
  if count ≤ 0 then []
  else if count = 1 then source_frames.take 1
  else if count ≥ (source_frames.length : Int) then source_frames
  else (((List.range count.toNat).map
          (fun i => i * (source_frames.length - 1) / (count.toNat - 1))).filterMap
        (fun i => source_frames.get? i))

/-- `size_4_this_frames` (source lines 234–245): select `num_frames`
frames, return `float('inf')` if the selection is empty, otherwise encode
at the ambient `final_quality`; a produced buffer replaces the
`successful_buffer` cell and its byte count is returned, a failed encode
leaves the cell alone and returns `float('inf')`. -/
def size_4_this_frames {α β : Type} (enc : List α → Int → Option β) (bsize : β → Nat)
    (st : Stage) (final_quality : Int) (frames : List α) :
    SState α β → Int → SState α β × Size :=
  fun s num_frames =>
    let frames_to_test := select_frames frames num_frames
    if frames_to_test.isEmpty then (s, ⊤)
    else
      match enc frames_to_test final_quality with
      | some b =>
          (⟨some b, s.evs ++ [.trial st frames_to_test final_quality (some b) (some b)]⟩,
           (bsize b : Size))
      | none =>
          (⟨s.held, s.evs ++ [.trial st frames_to_test final_quality none s.held]⟩, ⊤)

/-- `size_4_this_quality` (source lines 248–258): like
`size_4_this_frames` but the frame list is fixed and the searched value is
the quality handed to the encoder. -/
def size_4_this_quality {α β : Type} (enc : List α → Int → Option β) (bsize : β → Nat)
    (st : Stage) (frames : List α) :
    SState α β → Int → SState α β × Size :=
  fun s quality =>
    if frames.isEmpty then (s, ⊤)
    else
      match enc frames quality with
      | some b =>
          (⟨some b, s.evs ++ [.trial st frames quality (some b) (some b)]⟩, (bsize b : Size))
      | none =>
          (⟨s.held, s.evs ++ [.trial st frames quality none s.held]⟩, ⊤)

/-- Python truthiness of the first component of a `_binary_search` result,
as used by the `if best_f:` / `if best_q:` stage-advance tests:
`None` and `0` are falsy. -/
def truthy : Option (Int × Size) → Bool
  | some (v, _) => v != 0
  | none => false

/-- Stage A's measured size (source lines 266–267):
`buffer.getbuffer().nbytes if buffer else float('inf')`. -/
def stage_A_size {α β : Type} (enc : List α → Int → Option β) (bsize : β → Nat)
    (frames : List α) (quality : Nat) : Size :=
  match enc frames (quality : Int) with
  | some b => (bsize b : Size)
  | none => ⊤

/-- One fallback-stage boundary of `convert`: inspect a `_binary_search`
result `r`, propagate fuel exhaustion, record the search event, stop with
the currently held buffer when the stage found a (truthy) value
(`if best_f:` / `if best_q:` in the source), and otherwise continue with
the next stage. -/
def stage_step {α β : Type} (r : Option (Option (Int × Size)) × List Int × SState α β)
    (st : Stage) (low high : Int)
    (next : SState α β → Option (Option β) × List (Ev α β)) :
    Option (Option β) × List (Ev α β) :=
  match r.1 with
  | none => (none, r.2.2.evs)
  | some out =>
    let s' : SState α β := ⟨r.2.2.held, r.2.2.evs ++ [.search st low high out]⟩
    if truthy out then (some s'.held, s'.evs) else next s'

/-- The search phase of `convert` (source lines 216–333), starting after
frame extraction: Stage A's single trial, the Stage B–E fallback searches,
the unconditional single-frame quality-1 re-encode, and the final save
decision.  Result: `none` when a search loop ran out of fuel (the source
diverges), otherwise `some held` where `held` is the `successful_buffer`
written by the final save (`some` a buffer) or `none` (the source raises
`ValueError` at line 333).  The event trace is returned alongside.
The `if not final_frames: raise` guard at line 213 precedes this phase. -/
def convert {α β : Type} (enc : List α → Int → Option β) (bsize : β → Nat)
    (final_frames : List α) (quality : Nat) (tmin tmax : Nat) (fuel : Nat) :
    Option (Option β) × List (Ev α β) :=
  let cap : Nat := final_frames.length          -- CAP_FRAMES_SiZE
  let pivot : Nat := cap / 2                    -- FRAME_PIVOT
  let bufA := enc final_frames (quality : Int)
  let sizeA : Size := match bufA with | some b => (bsize b : Size) | none => ⊤
  if sizeA ≤ (tmax : Size) then
    (some bufA, [.trial .A final_frames (quality : Int) bufA bufA])
  else
    let s0 : SState α β := ⟨none, [.trial .A final_frames (quality : Int) bufA none]⟩
    stage_step (_binary_search (size_4_this_frames enc bsize .B (quality : Int) final_frames)
        tmin tmax (pivot : Int) (cap : Int) fuel s0) .B (pivot : Int) (cap : Int) (fun s1 =>
      let framesC := select_frames final_frames (pivot : Int)
      stage_step (_binary_search (size_4_this_quality enc bsize .C framesC)
          tmin tmax ((quality / 2 : Nat) : Int) (quality : Int) fuel s1)
          .C ((quality / 2 : Nat) : Int) (quality : Int) (fun s2 =>
        stage_step (_binary_search (size_4_this_frames enc bsize .D ((quality / 2 : Nat) : Int) framesC)
            tmin tmax (1 : Int) (pivot : Int) fuel s2) .D 1 (pivot : Int) (fun s3 =>
          let framesE := select_frames framesC 1
          stage_step (_binary_search (size_4_this_quality enc bsize .E framesE)
              tmin tmax (1 : Int) ((quality / 2 : Nat) : Int) fuel s3)
              .E 1 ((quality / 2 : Nat) : Int) (fun s4 =>
            let bufF := enc framesE 1
            (some bufF, s4.evs ++ [.trial .F framesE 1 bufF bufF])))))

/-- `SIZE_CAP_KB` (source line 217). -/
def SIZE_CAP_KB : Nat := 490

/-- `SIZE_TARGET_RANGE` (source line 218): `((490-100)*1024, 490*1024)`. -/
def SIZE_TARGET_RANGE : Nat × Nat := ((SIZE_CAP_KB - 100) * 1024, SIZE_CAP_KB * 1024)

/-- `MAX_FRAMES_CAP` (source line 205). -/
def MAX_FRAMES_CAP : Nat := 30

/-- A stateless evaluator, as used by the spec's synthetic `evaluate`
functions: the measured size depends only on the searched value. -/
def pure_ev (f : Int → Size) : Unit → Int → Unit × Size := fun _ v => ((), f v)

/-- An evaluator that always reports an over-cap size (`614400` bytes
against the source's target range), used to exercise the over-budget
branch. -/
def f_over : Int → Size := fun _ => ((614400 : Nat) : Size)

/-- The "search correctness" claim exactly as stated: for *every*
monotone evaluator and *every* integer search space, whenever some value
in the space has an in-range size, `_binary_search` (run with whatever
fuel, i.e. however long the source loop is allowed to run) returns a
value whose size is inside the target range. -/
def search_monotone_finds_claim : Prop :=
  ∀ (f : Int → Size), Monotone f →
    ∀ (tmin tmax : Nat), tmin < tmax →
      ∀ (low high : Int),
        (∃ w, low ≤ w ∧ w ≤ high ∧ (tmin : Size) ≤ f w ∧ f w ≤ (tmax : Size)) →
        ∃ (fuel : Nat) (v : Int) (sz : Size),
          (_binary_search (pure_ev f) tmin tmax low high fuel ()).1 = some (some (v, sz))
          ∧ (tmin : Size) ≤ sz ∧ sz ≤ (tmax : Size)

/-- A monotone step evaluator: in-range `400000` bytes for `v ≤ 0`,
over-cap `614400` bytes for `v ≥ 1`. -/
def f_step : Int → Size :=
  fun v => if v ≤ 0 then ((400000 : Nat) : Size) else ((614400 : Nat) : Size)

/-- A strictly increasing linear evaluator: `100000·v` bytes for
`v ≥ 0`. -/
def f_lin : Int → Size := fun v => ((100000 * v.toNat : Nat) : Size)

/-- An encoder that always produces a buffer of `614400` bytes — an
"evaluate always above the window" oracle for the source's target
range. -/
def enc_over : List Nat → Int → Option Nat := fun _ _ => some 614400

/-- The encoder result recorded on an event (`none` for search events and
failed trials). -/
def ev_res {α β : Type} : Ev α β → Option β
  | .trial _ _ _ r _ => r
  | .search _ _ _ _ => none

/-- The most recent successful encode recorded in a trace: the `res`
field of the last trial event that carries one. -/
def lastRes {α β : Type} (l : List (Ev α β)) : Option β :=
  (l.filterMap ev_res).getLast?

/-- The search events of a trace, in order: stage, search-space bounds,
and the outcome the search returned. -/
def search_events {α β : Type} (l : List (Ev α β)) :
    List (Stage × Int × Int × Option (Int × Size)) :=
  l.filterMap (fun e => match e with
    | .search st lo hi out => some (st, lo, hi, out)
    | .trial _ _ _ _ _ => none)

/-- The held-buffer discipline the code actually implements, per event:
Stage A's direct trial is held only when its size is at most the cap
(source line 270); every Stage B–E evaluator trial that produces a buffer
replaces the held buffer with it; the final fallback trial overwrites the
held buffer with its own result unconditionally, even a failure (source
line 320); search events do not touch the cell. -/
def held_discipline {α β : Type} (bsize : β → Nat) (tmax : Nat) : Ev α β → Prop
  | .trial .A _ _ r ha =>
      ha = match r with
           | some b => if bsize b ≤ tmax then some b else none
           | none => none
  | .trial .F _ _ r ha => ha = r
  | .trial _ _ _ r ha => r ≠ none → ha = r
  | .search _ _ _ _ => True

/-- An encoder that succeeds only on the full 2-frame list at quality 80
(i.e. only on Stage A's trial), with an over-cap size; every other trial
fails. -/
def enc_A_only : List Nat → Int → Option Nat :=
  fun fr q => if fr.length = 2 ∧ q = 80 then some 614400 else none

/-- An encoder that always fails. -/
def enc_fail : List Nat → Int → Option Nat := fun _ _ => none

/-- An encoder whose size is over-cap (`614400`) on four or more frames
and under-window (`100000`) otherwise: Stage B's first trial (3 frames)
under-shoots and is recorded as best, its second trial (4 frames)
over-shoots but its buffer replaces the held one, and the search then
returns the earlier best — so the written buffer is the over-cap one. -/
def enc_last_over : List Nat → Int → Option Nat :=
  fun fr _ => some (if fr.length ≥ 4 then 614400 else 100000)

/-- An event that is an encode trial, not a search record. -/
def is_trial {α β : Type} : Ev α β → Prop
  | .trial _ _ _ _ _ => True
  | .search _ _ _ _ => False

end VideoToWebP

namespace VideoToWebP

/-! ### Lemmas about the `_binary_search` loop -/

/-- Any `(value, size)` pair returned by the search loop has
`size ≤ target_range[1]`: the in-window return checks
`size <= target_range[1]` directly and the post-loop return is guarded by
`best_size <= target_range[1]` (source lines 82–83 and 94–95). -/
theorem loop_result_le_max {σ : Type} (ev : σ → Int → σ × Size) (tmin tmax : Nat) :
    ∀ (fuel : Nat) (low high : Int) (bv : Option Int) (bs : Size) (s : σ) (v : Int) (sz : Size),
      (_binary_search_loop ev tmin tmax fuel low high bv bs s).1 = some (some (v, sz)) →
      sz ≤ (tmax : Size) := by
  intro fuel
  induction fuel with
  | zero =>
    intro low high bv bs s v sz h
    simp [_binary_search_loop] at h
  | succ n ih =>
    intro low high bv bs s v sz h
    simp only [_binary_search_loop] at h
    split at h
    · rcases bv with _ | w
      · simp at h
      · simp only [] at h
        split at h
        · rename_i hbs
          simp only [Option.some.injEq, Prod.mk.injEq] at h
          exact h.2 ▸ hbs
        · simp at h
    · split at h
      · rename_i hcond
        simp only [Option.some.injEq, Prod.mk.injEq] at h
        exact h.2 ▸ hcond.2
      · split at h
        · exact ih _ _ _ _ _ _ _ h
        · exact ih _ _ _ _ _ _ _ h

/-- C1: for every size target range `(min, max)` with `min < max`, every
integer search space, and every (possibly stateful) evaluator, if
`_binary_search` returns a `(value, size)` pair then that size is at most
`targetRange.max` — both the immediate in-window return and the post-loop
best-under-target return respect the cap. -/
theorem binary_search_le_max {σ : Type} (ev : σ → Int → σ × Size) (tmin tmax : Nat)
    (hrange : tmin < tmax) (low high : Int) (fuel : Nat) (s : σ) (v : Int) (sz : Size)
    (h : (_binary_search ev tmin tmax low high fuel s).1 = some (some (v, sz))) :
    sz ≤ (tmax : Size) := by
  unfold _binary_search at h
  split at h
  · simp at h
  · exact loop_result_le_max ev tmin tmax fuel low high none ⊤ s v sz h

/-- Instantiation of `binary_search_le_max` at a concrete monotone
evaluator (`size = 100000·v` bytes) on the space `[1, 30]` with the
source's own target range: the returned size `500000` is at most
`501760`. -/
theorem binary_search_le_max_witness :
    ((500000 : Nat) : Size) ≤ ((501760 : Nat) : Size) :=
  binary_search_le_max (pure_ev fun v => ((100000 * v.toNat : Nat) : Size)) 399360 501760
    (by decide) 1 30 40 () 5 ((500000 : Nat) : Size) (by decide)

/-! ### The frame sampler -/

/-- In the strict-interior branch (`2 ≤ count < total_frames`),
`_select_indices` is the evenly-spaced floor-formula map. -/
theorem select_indices_eq_map (total count : Int) (h2 : 2 ≤ count) (h3 : count < total) :
    _select_indices total count =
      (List.range count.toNat).map
        (fun i => i * (total.toNat - 1) / (count.toNat - 1)) := by
  unfold _select_indices
  rw [if_neg (by omega), if_neg (by omega), if_neg (by omega)]

/-- Division distributes over addition from below: `x/B + y/B ≤ (x+y)/B`. -/
theorem div_add_le_add_div (B x y : Nat) (hB : 0 < B) : x / B + y / B ≤ (x + y) / B := by
  rw [Nat.le_div_iff_mul_le hB, Nat.add_mul]
  exact Nat.add_le_add (Nat.div_mul_le_self x B) (Nat.div_mul_le_self y B)

/-- The floor formula `i ↦ i * A / B` is strictly monotone when
`0 < B ≤ A`. -/
theorem sel_formula_strictMono (A B : Nat) (hB : 0 < B) (hBA : B ≤ A) :
    StrictMono (fun i => i * A / B) := by
  have hstep : ∀ a : Nat, a * A / B + A / B ≤ (a + 1) * A / B := by
    intro a
    calc a * A / B + A / B ≤ (a * A + A) / B := div_add_le_add_div B (a * A) A hB
    _ = (a + 1) * A / B := by ring_nf
  have hone : 1 ≤ A / B := (Nat.one_le_div_iff hB).2 hBA
  intro a b hab
  have hmono : (a + 1) * A / B ≤ b * A / B :=
    Nat.div_le_div_right (Nat.mul_le_mul_right A (by omega))
  have := hstep a
  simp only []
  omega

/-- C8: the frame sampler's contract.  `count ≤ 0` yields the empty list;
`count = 1` yields exactly the first frame's index (for a nonempty
sequence — the source indexes `seq[0]`); `count ≥ total` yields every
index in order; otherwise the indices are
`⌊i * (total-1) / (count-1)⌋` for `i = 0, .., count-1`, which in
particular include the first and the last original frame.  The function
is pure, so identical inputs trivially yield identical index lists. -/
theorem select_indices_contract (total count : Int) :
    (count ≤ 0 → _select_indices total count = [])
  ∧ (1 ≤ total → count = 1 → _select_indices total count = [0])
  ∧ (total ≤ count → _select_indices total count = List.range total.toNat)
  ∧ (2 ≤ count → count < total →
      _select_indices total count =
        (List.range count.toNat).map
          (fun i => i * (total.toNat - 1) / (count.toNat - 1))
      ∧ (_select_indices total count).head? = some 0
      ∧ (_select_indices total count).getLast? = some (total.toNat - 1)) := by
  refine ⟨?_, ?_, ?_, ?_⟩
  · intro h
    unfold _select_indices
    rw [if_pos (Or.inl h)]
  · intro ht hc
    subst hc
    unfold _select_indices
    rw [if_neg (by omega), if_pos rfl]
  · intro h
    unfold _select_indices
    by_cases h0 : count ≤ 0 ∨ total ≤ 0
    · rw [if_pos h0]
      have hz : total.toNat = 0 := by omega
      rw [hz]
      rfl
    · by_cases h1 : count = 1
      · rw [if_neg h0, if_pos h1]
        have hz : total.toNat = 1 := by omega
        rw [hz]
        rfl
      · rw [if_neg h0, if_neg h1, if_pos (by omega)]
  · intro h2 hct
    have hne := select_indices_eq_map total count h2 hct
    refine ⟨hne, ?_, ?_⟩
    · rw [hne]
      obtain ⟨k, hk⟩ : ∃ k, count.toNat = k + 1 := ⟨count.toNat - 1, by omega⟩
      rw [hk, List.head?_map]
      have : (List.range (k + 1)).head? = some 0 := by
        rw [List.range_succ_eq_map]
        rfl
      rw [this]
      simp
    · rw [hne]
      obtain ⟨k, hk⟩ : ∃ k, count.toNat = k + 1 := ⟨count.toNat - 1, by omega⟩
      rw [hk, List.range_succ, List.map_append, List.map_singleton, List.getLast?_concat]
      have hkpos : 0 < k := by omega
      simp only [Nat.add_sub_cancel]
      rw [Nat.mul_div_cancel_left (total.toNat - 1) hkpos]

/-- Instantiation of `select_indices_contract` at `total = 10`,
`count = 4`: the interior branch yields the floor-formula indices, whose
first entry is `0` and last entry is `9`. -/
theorem select_indices_contract_witness :
    _select_indices 10 4 =
        (List.range (4 : Int).toNat).map
          (fun i => i * ((10 : Int).toNat - 1) / ((4 : Int).toNat - 1))
      ∧ (_select_indices 10 4).head? = some 0
      ∧ (_select_indices 10 4).getLast? = some ((10 : Int).toNat - 1) :=
  (select_indices_contract 10 4).2.2.2 (by decide) (by decide)

/-- C10: in the strict-interior regime (`total ≥ 1`, `2 ≤ count < total`)
the sampler returns exactly `count` indices, strictly increasing (hence
pairwise distinct), all within `[0, total - 1]`: a true subsequence
selection with no repeated frames. -/
theorem select_indices_strict_subsequence (total count : Int)
    (h1 : 1 ≤ total) (h2 : 2 ≤ count) (h3 : count < total) :
    (_select_indices total count).length = count.toNat
  ∧ (_select_indices total count).Pairwise (· < ·)
  ∧ ∀ i ∈ _select_indices total count, i < total.toNat := by
  have hne := select_indices_eq_map total count h2 h3
  have hB : 0 < count.toNat - 1 := by omega
  have hBA : count.toNat - 1 ≤ total.toNat - 1 := by omega
  have hsm := sel_formula_strictMono (total.toNat - 1) (count.toNat - 1) hB hBA
  refine ⟨?_, ?_, ?_⟩
  · rw [hne, List.length_map, List.length_range]
  · rw [hne, List.pairwise_map]
    exact (List.pairwise_lt_range count.toNat).imp (fun hab => hsm hab)
  · intro i hi
    rw [hne, List.mem_map] at hi
    obtain ⟨j, hj, rfl⟩ := hi
    rw [List.mem_range] at hj
    have hle : j * (total.toNat - 1) / (count.toNat - 1)
        ≤ (count.toNat - 1) * (total.toNat - 1) / (count.toNat - 1) :=
      Nat.div_le_div_right (Nat.mul_le_mul_right _ (by omega))
    rw [Nat.mul_div_cancel_left (total.toNat - 1) hB] at hle
    omega

/-- Instantiation of `select_indices_strict_subsequence` at `total = 10`,
`count = 4`. -/
theorem select_indices_strict_subsequence_witness :
    (_select_indices 10 4).length = (4 : Int).toNat
  ∧ (_select_indices 10 4).Pairwise (· < ·)
  ∧ ∀ i ∈ _select_indices 10 4, i < (10 : Int).toNat :=
  select_indices_strict_subsequence 10 4 (by decide) (by decide) (by decide)

/-! ### Midpoint facts and the values handed to the evaluator -/

/-- With a nonnegative lower bound and a nonempty window, the (clamped)
midpoint is at least `1`. -/
theorem loop_mid_pos (low high : Int) (h0 : 0 ≤ low) (hlh : low ≤ high) :
    1 ≤ loop_mid low high := by
  unfold loop_mid
  split <;> omega

/-- With a positive lower bound the clamp never fires and the midpoint
stays inside the window. -/
theorem loop_mid_bounds (low high : Int) (h1 : 1 ≤ low) (hlh : low ≤ high) :
    low ≤ loop_mid low high ∧ loop_mid low high ≤ high := by
  unfold loop_mid
  split <;> omega

/-- Over a window with nonnegative lower bound, every value the loop
passes to the evaluator is at least `1`. -/
theorem loop_mids_pos {σ : Type} (ev : σ → Int → σ × Size) (tmin tmax : Nat) :
    ∀ (fuel : Nat) (low high : Int) (bv : Option Int) (bs : Size) (s : σ), 0 ≤ low →
      ∀ m ∈ (_binary_search_loop ev tmin tmax fuel low high bv bs s).2.1, 1 ≤ m := by
  intro fuel
  induction fuel with
  | zero =>
    intro low high bv bs s h0 m hm
    simp [_binary_search_loop] at hm
  | succ n ih =>
    intro low high bv bs s h0 m hm
    simp only [_binary_search_loop] at hm
    split at hm
    · exact absurd hm (List.not_mem_nil m)
    · rename_i hlh
      have hmid : 1 ≤ loop_mid low high := loop_mid_pos low high h0 (by omega)
      split at hm
      · have := List.mem_singleton.mp hm
        omega
      · split at hm
        · rcases List.mem_cons.mp hm with rfl | hm'
          · exact hmid
          · exact ih (loop_mid low high + 1) high _ _ _ (by omega) m hm'
        · rcases List.mem_cons.mp hm with rfl | hm'
          · exact hmid
          · exact ih low (loop_mid low high - 1) bv bs _ h0 m hm'

/-- C9 (amended): for every search space whose lower bound is
nonnegative — as in every call site of the orchestrator — and every
evaluator, each value `_binary_search` passes to the evaluator is at
least `1`: the `mid == 0` clamp bumps a zero midpoint to `1`, and a
negative midpoint cannot arise from a nonnegative lower bound.  (As
stated over *every* integer search space the claim fails: the clamp
checks only for `0`, so a negative space evaluates negative values — see
the counterexample.) -/
theorem evaluated_values_positive {σ : Type} (ev : σ → Int → σ × Size) (tmin tmax : Nat)
    (low high : Int) (fuel : Nat) (s : σ) (hlow : 0 ≤ low) :
    ∀ m ∈ (_binary_search ev tmin tmax low high fuel s).2.1, 1 ≤ m := by
  intro m hm
  unfold _binary_search at hm
  split at hm
  · simp at hm
  · exact loop_mids_pos ev tmin tmax fuel low high none ⊤ s hlow m hm

/-- C9 as stated is false: on the search space `(-2, -2)` the loop hands
`-2` to the evaluator — the `mid == 0` clamp does not catch negative
midpoints. -/
theorem evaluated_values_positive_cex :
    (-2) ∈ (_binary_search (pure_ev f_over) 399360 501760 (-2) (-2) 10 ()).2.1
    ∧ ¬ (1 ≤ (-2 : Int)) := by
  constructor
  · decide
  · decide

/-- Instantiation of `evaluated_values_positive` on the space `[1, 30]`
with a concrete evaluator: the first evaluated midpoint `15` is at least
`1`. -/
theorem evaluated_values_positive_witness : 1 ≤ (15 : Int) :=
  evaluated_values_positive (pure_ev fun v => ((100000 * v.toNat : Nat) : Size))
    399360 501760 1 30 40 () (by decide) 15 (by decide)

/-! ### Monotone-evaluator correctness of `_binary_search` -/

/-- With a positive window, a monotone stateless evaluator, and enough
fuel, the loop returns an in-window pair whenever the window contains a
value whose size is inside the target range. -/
theorem loop_finds_inrange (f : Int → Size) (hf : Monotone f) (tmin tmax : Nat) :
    ∀ (fuel : Nat) (low high : Int) (bv : Option Int) (bs : Size) (s : Unit),
      1 ≤ low → (high + 1 - low).toNat < fuel →
      (∃ w, low ≤ w ∧ w ≤ high ∧ (tmin : Size) ≤ f w ∧ f w ≤ (tmax : Size)) →
      ∃ v sz, (_binary_search_loop (pure_ev f) tmin tmax fuel low high bv bs s).1
          = some (some (v, sz)) ∧ (tmin : Size) ≤ sz ∧ sz ≤ (tmax : Size) := by
  intro fuel
  induction fuel with
  | zero =>
    intro low high bv bs s h1 hfuel hex
    exact absurd hfuel (by omega)
  | succ n ih =>
    intro low high bv bs s h1 hfuel hex
    obtain ⟨w, hw1, hw2, hw3, hw4⟩ := hex
    simp only [_binary_search_loop, pure_ev]
    split
    · rename_i hlh
      exact absurd hlh (by omega)
    · rename_i hlh
      have hmb := loop_mid_bounds low high h1 (by omega)
      by_cases hin : (tmin : Size) ≤ f (loop_mid low high) ∧ f (loop_mid low high) ≤ (tmax : Size)
      · rw [if_pos hin]
        exact ⟨loop_mid low high, f (loop_mid low high), rfl, hin.1, hin.2⟩
      · rw [if_neg hin]
        by_cases hund : f (loop_mid low high) < (tmin : Size)
        · rw [if_pos hund]
          have hwm : loop_mid low high < w := by
            by_contra hc
            push_neg at hc
            exact absurd (lt_of_le_of_lt (hf hc) hund) (not_lt.mpr hw3)
          exact ih (loop_mid low high + 1) high (some (loop_mid low high))
            (f (loop_mid low high)) s (by omega) (by omega) ⟨w, by omega, hw2, hw3, hw4⟩
        · rw [if_neg hund]
          have hov : (tmax : Size) < f (loop_mid low high) := by
            rcases not_and_or.mp hin with h | h
            · exact absurd (not_lt.mp hund) h
            · exact not_le.mp h
          have hwm : w < loop_mid low high := by
            by_contra hc
            push_neg at hc
            exact absurd (lt_of_lt_of_le hov (hf hc)) (not_lt.mpr hw4)
          exact ih low (loop_mid low high - 1) bv bs s h1 (by omega)
            ⟨w, hw1, by omega, hw3, hw4⟩

/-- With a positive window, a monotone stateless evaluator, and enough
fuel, the loop returns *some* pair whenever the window contains a value
whose size is at most the cap, or an under-cap best has already been
recorded. -/
theorem loop_finds_of_le (f : Int → Size) (hf : Monotone f) (tmin tmax : Nat)
    (htm : tmin ≤ tmax) :
    ∀ (fuel : Nat) (low high : Int) (bv : Option Int) (bs : Size) (s : Unit),
      1 ≤ low → (high + 1 - low).toNat < fuel →
      ((∃ w, low ≤ w ∧ w ≤ high ∧ f w ≤ (tmax : Size))
        ∨ (∃ u, bv = some u ∧ bs ≤ (tmax : Size))) →
      ∃ r, (_binary_search_loop (pure_ev f) tmin tmax fuel low high bv bs s).1
          = some (some r) := by
  intro fuel
  induction fuel with
  | zero =>
    intro low high bv bs s h1 hfuel hd
    exact absurd hfuel (by omega)
  | succ n ih =>
    intro low high bv bs s h1 hfuel hd
    simp only [_binary_search_loop, pure_ev]
    split
    · rename_i hlh
      rcases hd with ⟨w, hw1, hw2, _⟩ | ⟨u, hu, hbs⟩
      · exact absurd hlh (by omega)
      · subst hu
        exact ⟨(u, bs), by simp [hbs]⟩
    · rename_i hlh
      have hmb := loop_mid_bounds low high h1 (by omega)
      by_cases hin : (tmin : Size) ≤ f (loop_mid low high) ∧ f (loop_mid low high) ≤ (tmax : Size)
      · rw [if_pos hin]
        exact ⟨(loop_mid low high, f (loop_mid low high)), rfl⟩
      · rw [if_neg hin]
        by_cases hund : f (loop_mid low high) < (tmin : Size)
        · rw [if_pos hund]
          have hl2 : 1 ≤ loop_mid low high + 1 := by omega
          have hf2 : (high + 1 - (loop_mid low high + 1)).toNat < n := by
            clear hd
            omega
          refine ih (loop_mid low high + 1) high (some (loop_mid low high))
            (f (loop_mid low high)) s hl2 hf2 (Or.inr ⟨loop_mid low high, rfl, ?_⟩)
          exact le_trans (le_of_lt hund) (WithTop.coe_le_coe.mpr htm)
        · rw [if_neg hund]
          have hov : (tmax : Size) < f (loop_mid low high) := by
            rcases not_and_or.mp hin with h | h
            · exact absurd (not_lt.mp hund) h
            · exact not_le.mp h
          have hf3 : (loop_mid low high - 1 + 1 - low).toNat < n := by
            clear hd
            omega
          refine ih low (loop_mid low high - 1) bv bs s h1 hf3 ?_
          rcases hd with ⟨w, hw1, hw2, hw3⟩ | hr
          · have hwm : w < loop_mid low high := by
              by_contra hc
              push_neg at hc
              exact absurd (lt_of_lt_of_le hov (hf hc)) (not_lt.mpr hw3)
            exact Or.inl ⟨w, hw1, by omega, hw3⟩
          · exact Or.inr hr

/-- C2 (amended): for every monotone stateless evaluator, every target
range with `min ≤ max`, and every search space with a *positive* lower
bound (as in the source's reachable Stage B–E spaces once the inputs are
nondegenerate) and enough fuel for the window, `_binary_search` returns a
value whose size lies inside the target range whenever some value in the
space has an in-range size, and returns `(None, None)` only when every
value in the space evaluates above `targetRange.max`.  (Over arbitrary
search spaces the claim fails: with a lower bound of `0` the `mid == 0`
clamp re-evaluates `1` forever and the loop diverges — see the
counterexample.) -/
theorem binary_search_monotone_correct (f : Int → Size) (hf : Monotone f)
    (tmin tmax : Nat) (htm : tmin ≤ tmax) (low high : Int) (hlow : 1 ≤ low)
    (fuel : Nat) (hfuel : (high + 1 - low).toNat < fuel) :
    ((∃ w, low ≤ w ∧ w ≤ high ∧ (tmin : Size) ≤ f w ∧ f w ≤ (tmax : Size)) →
      ∃ v sz, (_binary_search (pure_ev f) tmin tmax low high fuel ()).1 = some (some (v, sz))
        ∧ (tmin : Size) ≤ sz ∧ sz ≤ (tmax : Size))
  ∧ ((_binary_search (pure_ev f) tmin tmax low high fuel ()).1 = some none →
      ∀ v, low ≤ v → v ≤ high → (tmax : Size) < f v) := by
  constructor
  · intro hex
    obtain ⟨w, hw1, hw2, _, _⟩ := hex
    unfold _binary_search
    rw [if_neg (by omega)]
    exact loop_finds_inrange f hf tmin tmax fuel low high none ⊤ () hlow hfuel
      ⟨w, hw1, hw2, by tauto, by tauto⟩
  · intro hret v hv1 hv2
    by_contra hc
    push_neg at hc
    unfold _binary_search at hret
    rw [if_neg (by omega)] at hret
    obtain ⟨r, hr⟩ := loop_finds_of_le f hf tmin tmax htm fuel low high none ⊤ ()
      hlow hfuel (Or.inl ⟨v, hv1, hv2, hc⟩)
    rw [hr] at hret
    simp at hret

/-- With an evaluator that reports an over-cap size at `1` from every
state, the loop is stuck on the window `(0, 0)`: the clamped midpoint is
`1`, the over-budget branch sets `high = mid - 1 = 0` again, and the state
`(low, high) = (0, 0)` repeats forever — the source's `while` loop
diverges. -/
theorem loop_stuck_at_zero {σ : Type} (ev : σ → Int → σ × Size) (tmin tmax : Nat)
    (htm : tmin ≤ tmax) (hov : ∀ s, (tmax : Size) < (ev s 1).2) :
    ∀ (fuel : Nat) (bv : Option Int) (bs : Size) (s : σ),
      (_binary_search_loop ev tmin tmax fuel 0 0 bv bs s).1 = none := by
  intro fuel
  induction fuel with
  | zero =>
    intro bv bs s
    rfl
  | succ n ih =>
    intro bv bs s
    simp only [_binary_search_loop]
    rw [if_neg (by omega)]
    have hm : loop_mid 0 0 = 1 := by decide
    rw [hm]
    have h1 := hov s
    have hnin : ¬((tmin : Size) ≤ (ev s 1).2 ∧ (ev s 1).2 ≤ (tmax : Size)) :=
      fun hc => absurd h1 (not_lt.mpr hc.2)
    have hnun : ¬((ev s 1).2 < (tmin : Size)) :=
      not_lt.mpr (le_trans (WithTop.coe_le_coe.mpr htm) (le_of_lt h1))
    rw [if_neg hnin, if_neg hnun]
    exact ih bv bs ((ev s 1).1)

/-- `f_step` is monotone. -/
theorem f_step_mono : Monotone f_step := by
  intro a b hab
  unfold f_step
  split_ifs with ha hb
  · exact le_refl _
  · decide
  · rename_i hb'
    exact absurd (le_trans hab hb') ha
  · exact le_refl _

/-- C2 as stated is false: on the search space `(0, 0)` with the monotone
evaluator `f_step` and the source's own target range, the value `0` has
an in-range size, yet the search returns nothing at any fuel — the
clamped midpoint `1` evaluates over-cap, `high` becomes `0` again, and
the loop never terminates. -/
theorem binary_search_monotone_correct_cex : ¬ search_monotone_finds_claim := by
  intro hclaim
  obtain ⟨fuel, v, sz, hret, -, -⟩ :=
    hclaim f_step f_step_mono 399360 501760 (by omega) 0 0
      ⟨0, le_refl 0, le_refl 0, by decide, by decide⟩
  have hdiv := loop_stuck_at_zero (pure_ev f_step) 399360 501760 (by omega)
    (by intro s; cases s; decide) fuel none ⊤ ()
  unfold _binary_search at hret
  rw [if_neg (by omega)] at hret
  rw [hdiv] at hret
  exact Option.noConfusion hret

/-- `f_lin` is monotone. -/
theorem f_lin_mono : Monotone f_lin := by
  intro a b hab
  unfold f_lin
  exact WithTop.coe_le_coe.mpr (Nat.mul_le_mul_left _ (Int.toNat_le_toNat hab))

/-- Instantiation of `binary_search_monotone_correct` at `f_lin` on the
space `[1, 30]` with the source's target range: an in-range value exists
(`v = 4`), and the search indeed returns an in-range pair. -/
theorem binary_search_monotone_correct_witness :
    ∃ v sz, (_binary_search (pure_ev f_lin) 399360 501760 1 30 31 ()).1 = some (some (v, sz))
      ∧ ((399360 : Nat) : Size) ≤ sz ∧ sz ≤ ((501760 : Nat) : Size) :=
  (binary_search_monotone_correct f_lin f_lin_mono 399360 501760 (by decide) 1 30
      (by decide) 31 (by decide)).1
    ⟨4, by decide, by decide, by decide, by decide⟩

/-! ### Divergence of the orchestrator on degenerate stage spaces -/

/-- With an evaluator that reports an over-cap size at `1` from every
state, the loop also diverges from the window `(0, 1)`: the first
midpoint `(0+1)//2 = 0` clamps to `1`, the over-budget branch sets
`high = 0`, and the loop is then stuck at `(0, 0)`. -/
theorem loop_stuck_zero_one {σ : Type} (ev : σ → Int → σ × Size) (tmin tmax : Nat)
    (htm : tmin ≤ tmax) (hov : ∀ s, (tmax : Size) < (ev s 1).2) :
    ∀ (fuel : Nat) (bv : Option Int) (bs : Size) (s : σ),
      (_binary_search_loop ev tmin tmax fuel 0 1 bv bs s).1 = none := by
  intro fuel
  cases fuel with
  | zero =>
    intro bv bs s
    rfl
  | succ n =>
    intro bv bs s
    simp only [_binary_search_loop]
    rw [if_neg (by omega)]
    have hm : loop_mid 0 1 = 1 := by decide
    rw [hm]
    have h1 := hov s
    have hnin : ¬((tmin : Size) ≤ (ev s 1).2 ∧ (ev s 1).2 ≤ (tmax : Size)) :=
      fun hc => absurd h1 (not_lt.mpr hc.2)
    have hnun : ¬((ev s 1).2 < (tmin : Size)) :=
      not_lt.mpr (le_trans (WithTop.coe_le_coe.mpr htm) (le_of_lt h1))
    rw [if_neg hnin, if_neg hnun]
    exact loop_stuck_at_zero ev tmin tmax htm hov n bv bs ((ev s 1).1)

/-- C3: the claim is the source's intent but the code diverges.  On a
single-frame input (`CAP_FRAMES_SiZE = 1`, so `FRAME_PIVOT = 0`) with an
encoder whose size is always above the window, Stage B searches the space
`(0, 1)`; the clamped midpoint `1` evaluates over-cap, `high` becomes `0`,
and the loop repeats the state `(0, 0)` forever.  The orchestrator
therefore never reaches Stages C–E or the fallback: at every fuel the run
is still inside Stage B's `while` loop. -/
theorem convert_diverges_single_frame :
    ∀ fuel : Nat, (convert enc_over id [0] 80 399360 501760 fuel).1 = none := by
  intro fuel
  have hov : ∀ s : SState Nat Nat,
      ((501760 : Nat) : Size) < (size_4_this_frames enc_over id .B 80 [0] s 1).2 := by
    intro s
    show ((501760 : Nat) : Size) < ((614400 : Nat) : Size)
    decide
  have hB : ∀ s : SState Nat Nat,
      (_binary_search (size_4_this_frames enc_over id .B 80 [0]) 399360 501760
        0 1 fuel s).1 = none := by
    intro s
    unfold _binary_search
    rw [if_neg (by omega)]
    exact loop_stuck_zero_one _ 399360 501760 (by omega) hov fuel none ⊤ s
  unfold convert
  rw [if_neg (by decide)]
  unfold stage_step
  norm_num [enc_over]
  rw [hB]

/-! ### Trace bookkeeping -/

/-- `lastRes` of an appended trace prefers the suffix. -/
theorem lastRes_append {α β : Type} (a b : List (Ev α β)) :
    lastRes (a ++ b) = (lastRes b).or (lastRes a) := by
  unfold lastRes
  rw [List.filterMap_append, List.getLast?_append]

/-- `search_events` distributes over append. -/
theorem search_events_append {α β : Type} (a b : List (Ev α β)) :
    search_events (a ++ b) = search_events a ++ search_events b := by
  unfold search_events
  rw [List.filterMap_append]

/-- The loop only grows the trace with events produced by its evaluator,
keeps the `successful_buffer` cell in sync with the last successful
encode among them, and preserves any per-event property the evaluator
guarantees. -/
theorem loop_trace {α β : Type} (ev : SState α β → Int → SState α β × Size)
    (P : Ev α β → Prop)
    (hev : ∀ s n, ∃ Δ, ((ev s n).1).evs = s.evs ++ Δ
        ∧ ((ev s n).1).held = (lastRes Δ).or s.held
        ∧ ∀ e ∈ Δ, P e)
    (tmin tmax : Nat) :
    ∀ (fuel : Nat) (low high : Int) (bv : Option Int) (bs : Size) (s : SState α β), ∃ Δ,
      ((_binary_search_loop ev tmin tmax fuel low high bv bs s).2.2).evs = s.evs ++ Δ
      ∧ ((_binary_search_loop ev tmin tmax fuel low high bv bs s).2.2).held
          = (lastRes Δ).or s.held
      ∧ ∀ e ∈ Δ, P e := by
  intro fuel
  induction fuel with
  | zero =>
    intro low high bv bs s
    exact ⟨[], by simp [_binary_search_loop], by simp [_binary_search_loop, lastRes], by simp⟩
  | succ n ih =>
    intro low high bv bs s
    simp only [_binary_search_loop]
    split
    · exact ⟨[], by simp, by simp [lastRes], by simp⟩
    · obtain ⟨Δ₁, he1, he2, he3⟩ := hev s (loop_mid low high)
      split
      · exact ⟨Δ₁, he1, he2, he3⟩
      · split
        · obtain ⟨Δ₂, hr1, hr2, hr3⟩ := ih (loop_mid low high + 1) high
            (some (loop_mid low high)) ((ev s (loop_mid low high)).2) (ev s (loop_mid low high)).1
          refine ⟨Δ₁ ++ Δ₂, ?_, ?_, ?_⟩
          · rw [hr1, he1, List.append_assoc]
          · rw [hr2, he2, lastRes_append, Option.or_assoc]
          · intro e he
            rcases List.mem_append.mp he with h | h
            · exact he3 e h
            · exact hr3 e h
        · obtain ⟨Δ₂, hr1, hr2, hr3⟩ := ih low (loop_mid low high - 1) bv bs
            (ev s (loop_mid low high)).1
          refine ⟨Δ₁ ++ Δ₂, ?_, ?_, ?_⟩
          · rw [hr1, he1, List.append_assoc]
          · rw [hr2, he2, lastRes_append, Option.or_assoc]
          · intro e he
            rcases List.mem_append.mp he with h | h
            · exact he3 e h
            · exact hr3 e h

/-- If the evaluator never drops a non-empty `successful_buffer` and
holds a buffer after any finite-size trial, then a loop that returns a
`(value, size)` pair leaves a non-empty `successful_buffer`. -/
theorem loop_held_some {α β : Type} (ev : SState α β → Int → SState α β × Size)
    (hkeep : ∀ s n, s.held ≠ none → ((ev s n).1).held ≠ none)
    (hfin : ∀ s n, (ev s n).2 ≠ ⊤ → ((ev s n).1).held ≠ none)
    (tmin tmax : Nat) :
    ∀ (fuel : Nat) (low high : Int) (bv : Option Int) (bs : Size) (s : SState α β),
      (bv ≠ none → s.held ≠ none) →
      ∀ r, (_binary_search_loop ev tmin tmax fuel low high bv bs s).1 = some (some r) →
        ((_binary_search_loop ev tmin tmax fuel low high bv bs s).2.2).held ≠ none := by
  intro fuel
  induction fuel with
  | zero =>
    intro low high bv bs s hinv r hr
    simp [_binary_search_loop] at hr
  | succ n ih =>
    intro low high bv bs s hinv r hr
    simp only [_binary_search_loop] at hr ⊢
    by_cases hlh : low > high
    · rw [if_pos hlh] at hr ⊢
      rcases bv with _ | u
      · simp at hr
      · simp only [] at hr ⊢
        by_cases hif : bs ≤ (tmax : Size)
        · rw [if_pos hif] at hr
          exact hinv (by simp)
        · rw [if_neg hif] at hr
          simp at hr
    · rw [if_neg hlh] at hr ⊢
      by_cases hin : (tmin : Size) ≤ (ev s (loop_mid low high)).2
          ∧ (ev s (loop_mid low high)).2 ≤ (tmax : Size)
      · rw [if_pos hin] at hr ⊢
        refine hfin s (loop_mid low high) ?_
        intro htop
        rw [htop] at hin
        exact absurd hin.2 (by simp)
      · rw [if_neg hin] at hr ⊢
        by_cases hund : (ev s (loop_mid low high)).2 < (tmin : Size)
        · rw [if_pos hund] at hr ⊢
          refine ih _ _ _ _ _ ?_ r hr
          intro _
          refine hfin s (loop_mid low high) ?_
          intro htop
          rw [htop] at hund
          exact absurd hund (by simp)
        · rw [if_neg hund] at hr ⊢
          exact ih _ _ _ _ _ (fun hbv => hkeep s (loop_mid low high) (hinv hbv)) r hr

/-- Truthiness of an outcome forces it to be a `(value, size)` pair. -/
theorem truthy_eq_some {out : Option (Int × Size)} (h : truthy out = true) :
    ∃ v sz, out = some (v, sz) ∧ v ≠ 0 := by
  rcases out with _ | ⟨v, sz⟩
  · simp [truthy] at h
  · exact ⟨v, sz, rfl, by simpa [truthy] using h⟩

/-- A `_binary_search` whose outcome is truthy leaves a non-empty
`successful_buffer`, under the evaluator conditions of
`loop_held_some`. -/
theorem search_found_held_some {α β : Type} (ev : SState α β → Int → SState α β × Size)
    (hkeep : ∀ s n, s.held ≠ none → ((ev s n).1).held ≠ none)
    (hfin : ∀ s n, (ev s n).2 ≠ ⊤ → ((ev s n).1).held ≠ none)
    (tmin tmax : Nat) (low high : Int) (fuel : Nat) (s : SState α β) :
    ∀ out, (_binary_search ev tmin tmax low high fuel s).1 = some out → truthy out = true →
      ((_binary_search ev tmin tmax low high fuel s).2.2).held ≠ none := by
  intro out hout ht
  obtain ⟨v, sz, rfl, -⟩ := truthy_eq_some ht
  unfold _binary_search at hout ⊢
  by_cases hlh : low > high
  · rw [if_pos hlh] at hout
    simp at hout
  · rw [if_neg hlh] at hout ⊢
    exact loop_held_some ev hkeep hfin tmin tmax fuel low high none ⊤ s
      (by simp) (v, sz) hout

/-- Over a window with nonnegative lower bound, a returned
`(value, size)` pair has `value ≥ 1` (every recorded `best_value` is an
evaluated midpoint). -/
theorem loop_ret_pos {σ : Type} (ev : σ → Int → σ × Size) (tmin tmax : Nat) :
    ∀ (fuel : Nat) (low high : Int) (bv : Option Int) (bs : Size) (s : σ), 0 ≤ low →
      (∀ u, bv = some u → 1 ≤ u) →
      ∀ v sz, (_binary_search_loop ev tmin tmax fuel low high bv bs s).1 = some (some (v, sz)) →
        1 ≤ v := by
  intro fuel
  induction fuel with
  | zero =>
    intro low high bv bs s h0 hbv v sz hr
    simp [_binary_search_loop] at hr
  | succ n ih =>
    intro low high bv bs s h0 hbv v sz hr
    simp only [_binary_search_loop] at hr
    split at hr
    · rcases bv with _ | u
      · simp at hr
      · simp only [] at hr
        split at hr
        · simp only [Option.some.injEq, Prod.mk.injEq] at hr
          obtain ⟨h1, -⟩ := hr
          exact h1 ▸ hbv u rfl
        · simp at hr
    · rename_i hlh
      have hmid : 1 ≤ loop_mid low high := loop_mid_pos low high h0 (by omega)
      split at hr
      · simp only [Option.some.injEq, Prod.mk.injEq] at hr
        obtain ⟨h1, -⟩ := hr
        omega
      · split at hr
        · refine ih (loop_mid low high + 1) high (some (loop_mid low high)) _ _
            (by omega) ?_ v sz hr
          intro u hu
          injection hu with hu
          omega
        · exact ih low (loop_mid low high - 1) bv bs _ h0 hbv v sz hr

/-- Over a search space with nonnegative lower bound, a `(value, size)`
pair returned by `_binary_search` has `value ≥ 1`; in particular the
source's `if best_f:` / `if best_q:` truthiness tests cannot see a zero
value. -/
theorem search_ret_pos {σ : Type} (ev : σ → Int → σ × Size) (tmin tmax : Nat)
    (low high : Int) (fuel : Nat) (s : σ) (hlow : 0 ≤ low) :
    ∀ v sz, (_binary_search ev tmin tmax low high fuel s).1 = some (some (v, sz)) → 1 ≤ v := by
  intro v sz hr
  unfold _binary_search at hr
  by_cases hlh : low > high
  · rw [if_pos hlh] at hr
    simp at hr
  · rw [if_neg hlh] at hr
    exact loop_ret_pos ev tmin tmax fuel low high none ⊤ s hlow (by simp) v sz hr

/-- A non-truthy outcome of a search over a space with nonnegative lower
bound is exactly the `(None, None)` return. -/
theorem search_not_truthy_none {σ : Type} (ev : σ → Int → σ × Size) (tmin tmax : Nat)
    (low high : Int) (fuel : Nat) (s : σ) (hlow : 0 ≤ low) (out : Option (Int × Size))
    (hout : (_binary_search ev tmin tmax low high fuel s).1 = some out)
    (ht : truthy out = false) : out = none := by
  rcases out with _ | ⟨v, sz⟩
  · rfl
  · have hv := search_ret_pos ev tmin tmax low high fuel s hlow v sz hout
    simp [truthy] at ht
    omega

/-! ### What the stage evaluators do to the state -/

/-- `size_4_this_frames` appends exactly its own trial events (all of its
stage, each holding the encode on success), and syncs the
`successful_buffer` cell with the last successful encode. -/
theorem s4f_spec {α β : Type} (enc : List α → Int → Option β) (bsize : β → Nat)
    (st : Stage) (fq : Int) (frames : List α) :
    ∀ (s : SState α β) (n : Int), ∃ Δ,
      ((size_4_this_frames enc bsize st fq frames s n).1).evs = s.evs ++ Δ
      ∧ ((size_4_this_frames enc bsize st fq frames s n).1).held = (lastRes Δ).or s.held
      ∧ ∀ e ∈ Δ, ∃ fr r ha, e = .trial st fr fq r ha ∧ (r ≠ none → ha = r) := by
  intro s n
  unfold size_4_this_frames
  by_cases hemp : (select_frames frames n).isEmpty
  · rw [if_pos hemp]
    exact ⟨[], by simp, by simp [lastRes], by simp⟩
  · rw [if_neg hemp]
    rcases henc : enc (select_frames frames n) fq with _ | b
    · refine ⟨[.trial st (select_frames frames n) fq none s.held], by simp, ?_, ?_⟩
      · simp [lastRes, ev_res]
      · intro e he
        rw [List.mem_singleton] at he
        subst he
        exact ⟨_, _, _, rfl, by simp⟩
    · refine ⟨[.trial st (select_frames frames n) fq (some b) (some b)], by simp, ?_, ?_⟩
      · simp [lastRes, ev_res]
      · intro e he
        rw [List.mem_singleton] at he
        subst he
        exact ⟨_, _, _, rfl, by simp⟩

/-- `size_4_this_quality` appends exactly its own trial events (all of
its stage, each holding the encode on success), and syncs the
`successful_buffer` cell with the last successful encode. -/
theorem s4q_spec {α β : Type} (enc : List α → Int → Option β) (bsize : β → Nat)
    (st : Stage) (frames : List α) :
    ∀ (s : SState α β) (qv : Int), ∃ Δ,
      ((size_4_this_quality enc bsize st frames s qv).1).evs = s.evs ++ Δ
      ∧ ((size_4_this_quality enc bsize st frames s qv).1).held = (lastRes Δ).or s.held
      ∧ ∀ e ∈ Δ, ∃ r ha, e = .trial st frames qv r ha ∧ (r ≠ none → ha = r) := by
  intro s qv
  unfold size_4_this_quality
  by_cases hemp : frames.isEmpty
  · rw [if_pos hemp]
    exact ⟨[], by simp, by simp [lastRes], by simp⟩
  · rw [if_neg hemp]
    rcases henc : enc frames qv with _ | b
    · refine ⟨[.trial st frames qv none s.held], by simp, ?_, ?_⟩
      · simp [lastRes, ev_res]
      · intro e he
        rw [List.mem_singleton] at he
        subst he
        exact ⟨_, _, rfl, by simp⟩
    · refine ⟨[.trial st frames qv (some b) (some b)], by simp, ?_, ?_⟩
      · simp [lastRes, ev_res]
      · intro e he
        rw [List.mem_singleton] at he
        subst he
        exact ⟨_, _, rfl, by simp⟩

/-- `size_4_this_frames` never empties a non-empty `successful_buffer`
cell. -/
theorem s4f_keep {α β : Type} (enc : List α → Int → Option β) (bsize : β → Nat)
    (st : Stage) (fq : Int) (frames : List α) :
    ∀ (s : SState α β) (n : Int), s.held ≠ none →
      ((size_4_this_frames enc bsize st fq frames s n).1).held ≠ none := by
  intro s n hs
  unfold size_4_this_frames
  by_cases hemp : (select_frames frames n).isEmpty
  · rw [if_pos hemp]
    exact hs
  · rw [if_neg hemp]
    rcases henc : enc (select_frames frames n) fq with _ | b <;> simp [hs]

/-- A finite size reported by `size_4_this_frames` comes from a
successful encode, which is then held. -/
theorem s4f_fin {α β : Type} (enc : List α → Int → Option β) (bsize : β → Nat)
    (st : Stage) (fq : Int) (frames : List α) :
    ∀ (s : SState α β) (n : Int), (size_4_this_frames enc bsize st fq frames s n).2 ≠ ⊤ →
      ((size_4_this_frames enc bsize st fq frames s n).1).held ≠ none := by
  intro s n hfin
  unfold size_4_this_frames at hfin ⊢
  by_cases hemp : (select_frames frames n).isEmpty
  · rw [if_pos hemp] at hfin
    exact absurd rfl hfin
  · rw [if_neg hemp] at hfin ⊢
    rcases henc : enc (select_frames frames n) fq with _ | b
    · rw [henc] at hfin
      exact absurd rfl hfin
    · simp

/-- `size_4_this_quality` never empties a non-empty `successful_buffer`
cell. -/
theorem s4q_keep {α β : Type} (enc : List α → Int → Option β) (bsize : β → Nat)
    (st : Stage) (frames : List α) :
    ∀ (s : SState α β) (qv : Int), s.held ≠ none →
      ((size_4_this_quality enc bsize st frames s qv).1).held ≠ none := by
  intro s qv hs
  unfold size_4_this_quality
  by_cases hemp : frames.isEmpty
  · rw [if_pos hemp]
    exact hs
  · rw [if_neg hemp]
    rcases henc : enc frames qv with _ | b <;> simp [hs]

/-- A finite size reported by `size_4_this_quality` comes from a
successful encode, which is then held. -/
theorem s4q_fin {α β : Type} (enc : List α → Int → Option β) (bsize : β → Nat)
    (st : Stage) (frames : List α) :
    ∀ (s : SState α β) (qv : Int), (size_4_this_quality enc bsize st frames s qv).2 ≠ ⊤ →
      ((size_4_this_quality enc bsize st frames s qv).1).held ≠ none := by
  intro s qv hfin
  unfold size_4_this_quality at hfin ⊢
  by_cases hemp : frames.isEmpty
  · rw [if_pos hemp] at hfin
    exact absurd rfl hfin
  · rw [if_neg hemp] at hfin ⊢
    rcases henc : enc frames qv with _ | b
    · rw [henc] at hfin
      exact absurd rfl hfin
    · simp

/-! ### Stage-boundary facts -/

/-- Fuel exhaustion propagates out of a stage boundary. -/
theorem stage_step_none {α β : Type} (r : Option (Option (Int × Size)) × List Int × SState α β)
    (st : Stage) (lo hi : Int) (next : SState α β → Option (Option β) × List (Ev α β))
    (h : r.1 = none) :
    stage_step r st lo hi next = (none, r.2.2.evs) := by
  unfold stage_step
  rw [h]

/-- A truthy stage outcome stops the cascade with the held buffer. -/
theorem stage_step_found {α β : Type} (r : Option (Option (Int × Size)) × List Int × SState α β)
    (st : Stage) (lo hi : Int) (next : SState α β → Option (Option β) × List (Ev α β))
    (out : Option (Int × Size)) (h : r.1 = some out) (ht : truthy out = true) :
    stage_step r st lo hi next
      = (some r.2.2.held, r.2.2.evs ++ [.search st lo hi out]) := by
  unfold stage_step
  rw [h]
  simp [ht]

/-- A non-truthy stage outcome records the search event and falls
through to the next stage. -/
theorem stage_step_next {α β : Type} (r : Option (Option (Int × Size)) × List Int × SState α β)
    (st : Stage) (lo hi : Int) (next : SState α β → Option (Option β) × List (Ev α β))
    (out : Option (Int × Size)) (h : r.1 = some out) (ht : truthy out = false) :
    stage_step r st lo hi next
      = next ⟨r.2.2.held, r.2.2.evs ++ [.search st lo hi out]⟩ := by
  unfold stage_step
  rw [h]
  simp [ht]

/-- `lastRes` ignores a search event. -/
theorem lastRes_search {α β : Type} (st : Stage) (lo hi : Int) (out : Option (Int × Size)) :
    lastRes ([.search st lo hi out] : List (Ev α β)) = none := rfl

/-- `lastRes` of a single trial event is its encoder result. -/
theorem lastRes_trial {α β : Type} (st : Stage) (fr : List α) (q : Int)
    (r ha : Option β) : lastRes [Ev.trial st fr q r ha] = r := by
  cases r <;> rfl

/-- Trace/held-cell bookkeeping for a whole `_binary_search` call. -/
theorem search_trace {α β : Type} (ev : SState α β → Int → SState α β × Size)
    (P : Ev α β → Prop)
    (hev : ∀ s n, ∃ Δ, ((ev s n).1).evs = s.evs ++ Δ
        ∧ ((ev s n).1).held = (lastRes Δ).or s.held
        ∧ ∀ e ∈ Δ, P e)
    (tmin tmax : Nat) (low high : Int) (fuel : Nat) (s : SState α β) : ∃ Δ,
      ((_binary_search ev tmin tmax low high fuel s).2.2).evs = s.evs ++ Δ
      ∧ ((_binary_search ev tmin tmax low high fuel s).2.2).held = (lastRes Δ).or s.held
      ∧ ∀ e ∈ Δ, P e := by
  unfold _binary_search
  by_cases hlh : low > high
  · rw [if_pos hlh]
    exact ⟨[], by simp, by simp [lastRes], by simp⟩
  · rw [if_neg hlh]
    exact loop_trace ev P hev tmin tmax fuel low high none ⊤ s

/-- If every event of the incoming trace satisfies `P`, the stage's
search event satisfies `P`, and the continuation preserves `P`, then
every event of the stage's result satisfies `P`. -/
theorem stage_step_allP {α β : Type} (P : Ev α β → Prop)
    (r : Option (Option (Int × Size)) × List Int × SState α β)
    (st : Stage) (lo hi : Int) (next : SState α β → Option (Option β) × List (Ev α β))
    (hall : ∀ e ∈ r.2.2.evs, P e)
    (hse : ∀ out, P (.search st lo hi out))
    (hnext : ∀ s' : SState α β, (∀ e ∈ s'.evs, P e) → ∀ e ∈ (next s').2, P e) :
    ∀ e ∈ (stage_step r st lo hi next).2, P e := by
  unfold stage_step
  rcases hr : r.1 with _ | out
  · exact hall
  · simp only []
    by_cases ht : truthy out = true
    · rw [if_pos ht]
      intro e he
      rcases List.mem_append.mp he with h | h
      · exact hall e h
      · rw [List.mem_singleton] at h
        subst h
        exact hse out
    · rw [if_neg ht]
      refine hnext _ ?_
      intro e he
      rcases List.mem_append.mp he with h | h
      · exact hall e h
      · rw [List.mem_singleton] at h
        subst h
        exact hse out

/-- If the held cell is in sync with the last successful encode of the
incoming trace, and the continuation preserves the "result buffer is the
most recent successful encode" property, then so does the whole stage. -/
theorem stage_step_resOK {α β : Type}
    (r : Option (Option (Int × Size)) × List Int × SState α β)
    (st : Stage) (lo hi : Int) (next : SState α β → Option (Option β) × List (Ev α β))
    (hsync : ∀ b, r.2.2.held = some b → lastRes r.2.2.evs = some b)
    (hnext : ∀ s' : SState α β, (∀ b, s'.held = some b → lastRes s'.evs = some b) →
      ∀ b, (next s').1 = some (some b) → lastRes (next s').2 = some b) :
    ∀ b, (stage_step r st lo hi next).1 = some (some b) →
      lastRes (stage_step r st lo hi next).2 = some b := by
  unfold stage_step
  rcases hr : r.1 with _ | out
  · intro b hb
    simp at hb
  · simp only []
    by_cases ht : truthy out = true
    · rw [if_pos ht]
      intro b hb
      simp only [Option.some.injEq] at hb
      rw [lastRes_append, lastRes_search, Option.none_or]
      exact hsync b hb
    · rw [if_neg ht]
      refine hnext _ ?_
      intro b hb
      rw [lastRes_append, lastRes_search, Option.none_or]
      exact hsync b hb

/-- If a truthy stage outcome guarantees a non-empty held cell, and the
continuation turns a buffer-less terminal result into a failed final
fallback trial, then so does the whole stage. -/
theorem stage_step_failOK {α β : Type}
    (r : Option (Option (Int × Size)) × List Int × SState α β)
    (st : Stage) (lo hi : Int) (next : SState α β → Option (Option β) × List (Ev α β))
    (hheld : ∀ out, r.1 = some out → truthy out = true → r.2.2.held ≠ none)
    (hnext : ∀ out, r.1 = some out → truthy out = false →
        (next ⟨r.2.2.held, r.2.2.evs ++ [.search st lo hi out]⟩).1 = some none →
        ∃ fr, (next ⟨r.2.2.held, r.2.2.evs ++ [.search st lo hi out]⟩).2.getLast?
            = some (.trial .F fr 1 none none)) :
    (stage_step r st lo hi next).1 = some none →
      ∃ fr, (stage_step r st lo hi next).2.getLast? = some (.trial .F fr 1 none none) := by
  unfold stage_step
  rcases hr : r.1 with _ | out
  · intro hb
    simp at hb
  · simp only []
    by_cases ht : truthy out = true
    · rw [if_pos ht]
      intro hb
      simp only [Option.some.injEq] at hb
      exact absurd hb (hheld out hr ht)
    · rw [if_neg ht]
      exact hnext out hr (by simpa using ht)

/-! ### Small facts about `select_frames` -/

/-- `select_frames` at count `1` is `[source_frames[0]]`. -/
theorem select_frames_one {α : Type} (l : List α) : select_frames l 1 = l.take 1 := by
  unfold select_frames
  norm_num

/-- `select_frames` with a positive count from a nonempty list is
nonempty. -/
theorem select_frames_ne_nil {α : Type} (l : List α) (c : Int) (hc : 1 ≤ c) (hl : l ≠ []) :
    select_frames l c ≠ [] := by
  unfold select_frames
  rw [if_neg (by omega)]
  by_cases h1 : c = 1
  · rw [if_pos h1]
    cases l with
    | nil => exact absurd rfl hl
    | cons a t => simp
  · rw [if_neg h1]
    by_cases h2 : c ≥ (l.length : Int)
    · rw [if_pos h2]
      exact hl
    · rw [if_neg h2]
      obtain ⟨m, hm⟩ : ∃ m, c.toNat = m + 1 := ⟨c.toNat - 1, by omega⟩
      rw [hm, List.range_succ_eq_map]
      cases l with
      | nil => exact absurd rfl hl
      | cons a t =>
        simp [List.filterMap_cons]

/-- From a nonempty list, the single-frame selection has exactly one
frame. -/
theorem select_frames_one_length {α : Type} (l : List α) (hl : l ≠ []) :
    (select_frames l 1).length = 1 := by
  rw [select_frames_one]
  cases l with
  | nil => exact absurd rfl hl
  | cons a t => simp

/-! ### C4: the held-buffer discipline -/

/-- C4 (amended): every trial routed through a stage evaluator
(`size_4_this_frames` / `size_4_this_quality`, Stages B–E) that produces
a buffer replaces the held best-buffer with that most recent successful
encode.  Stage A's direct trial, however, is held only when its size is
at most `targetRange.max` (an over-budget Stage A buffer is *not* held —
see the counterexample), and the final fallback overwrites the held
buffer with its own result unconditionally. -/
theorem held_buffer_discipline {α β : Type} (enc : List α → Int → Option β)
    (bsize : β → Nat) (final_frames : List α) (quality tmin tmax fuel : Nat) :
    ∀ e ∈ (convert enc bsize final_frames quality tmin tmax fuel).2,
      held_discipline bsize tmax e := by
  have hevB : ∀ (s : SState α β) n, ∃ Δ,
      ((size_4_this_frames enc bsize .B (quality : Int) final_frames s n).1).evs = s.evs ++ Δ
      ∧ ((size_4_this_frames enc bsize .B (quality : Int) final_frames s n).1).held
          = (lastRes Δ).or s.held
      ∧ ∀ e ∈ Δ, held_discipline bsize tmax e := by
    intro s n
    obtain ⟨Δ, h1, h2, h3⟩ := s4f_spec enc bsize .B (quality : Int) final_frames s n
    refine ⟨Δ, h1, h2, fun e he => ?_⟩
    obtain ⟨fr, r, ha, rfl, himp⟩ := h3 e he
    simpa [held_discipline] using himp
  have hevC : ∀ (s : SState α β) n, ∃ Δ,
      ((size_4_this_quality enc bsize .C
          (select_frames final_frames ((final_frames.length / 2 : Nat) : Int)) s n).1).evs
        = s.evs ++ Δ
      ∧ ((size_4_this_quality enc bsize .C
          (select_frames final_frames ((final_frames.length / 2 : Nat) : Int)) s n).1).held
          = (lastRes Δ).or s.held
      ∧ ∀ e ∈ Δ, held_discipline bsize tmax e := by
    intro s n
    obtain ⟨Δ, h1, h2, h3⟩ := s4q_spec enc bsize .C _ s n
    refine ⟨Δ, h1, h2, fun e he => ?_⟩
    obtain ⟨r, ha, rfl, himp⟩ := h3 e he
    simpa [held_discipline] using himp
  have hevD : ∀ (s : SState α β) n, ∃ Δ,
      ((size_4_this_frames enc bsize .D ((quality / 2 : Nat) : Int)
          (select_frames final_frames ((final_frames.length / 2 : Nat) : Int)) s n).1).evs
        = s.evs ++ Δ
      ∧ ((size_4_this_frames enc bsize .D ((quality / 2 : Nat) : Int)
          (select_frames final_frames ((final_frames.length / 2 : Nat) : Int)) s n).1).held
          = (lastRes Δ).or s.held
      ∧ ∀ e ∈ Δ, held_discipline bsize tmax e := by
    intro s n
    obtain ⟨Δ, h1, h2, h3⟩ := s4f_spec enc bsize .D ((quality / 2 : Nat) : Int) _ s n
    refine ⟨Δ, h1, h2, fun e he => ?_⟩
    obtain ⟨fr, r, ha, rfl, himp⟩ := h3 e he
    simpa [held_discipline] using himp
  have hevE : ∀ (s : SState α β) n, ∃ Δ,
      ((size_4_this_quality enc bsize .E
          (select_frames (select_frames final_frames ((final_frames.length / 2 : Nat) : Int)) 1)
          s n).1).evs = s.evs ++ Δ
      ∧ ((size_4_this_quality enc bsize .E
          (select_frames (select_frames final_frames ((final_frames.length / 2 : Nat) : Int)) 1)
          s n).1).held = (lastRes Δ).or s.held
      ∧ ∀ e ∈ Δ, held_discipline bsize tmax e := by
    intro s n
    obtain ⟨Δ, h1, h2, h3⟩ := s4q_spec enc bsize .E _ s n
    refine ⟨Δ, h1, h2, fun e he => ?_⟩
    obtain ⟨r, ha, rfl, himp⟩ := h3 e he
    simpa [held_discipline] using himp
  intro e he
  unfold convert at he
  simp only [] at he
  split at he
  · rename_i hA
    rw [List.mem_singleton] at he
    subst he
    rcases hb : enc final_frames ((quality : Nat) : Int) with _ | b
    · simp [held_discipline, hb]
    · rw [hb] at hA
      have hA2 : ((bsize b : Nat) : Size) ≤ ((tmax : Nat) : Size) := hA
      have hA3 : bsize b ≤ tmax := by exact_mod_cast hA2
      simp only [held_discipline, hb]
      rw [if_pos hA3]
  · rename_i hA
    refine stage_step_allP (held_discipline bsize tmax) _ _ _ _ _ ?_ ?_ ?_ e he
    · -- all events after the Stage B search satisfy the discipline
      obtain ⟨ΔB, hB1, hB2, hB3⟩ := search_trace
        (size_4_this_frames enc bsize .B (quality : Int) final_frames)
        (held_discipline bsize tmax) hevB tmin tmax
        ((final_frames.length / 2 : Nat) : Int) ((final_frames.length : Nat) : Int) fuel
        ⟨none, [.trial .A final_frames (quality : Int) (enc final_frames (quality : Int)) none]⟩
      intro e he
      rw [hB1] at he
      rcases List.mem_append.mp he with h | h
      · rw [List.mem_singleton] at h
        subst h
        rcases hb : enc final_frames ((quality : Nat) : Int) with _ | b
        · simp [held_discipline, hb]
        · rw [hb] at hA
          have hA2 : ¬ ((bsize b : Nat) : Size) ≤ ((tmax : Nat) : Size) := hA
          have hA3 : ¬ bsize b ≤ tmax := fun hle => hA2 (by exact_mod_cast hle)
          simp only [held_discipline, hb]
          rw [if_neg hA3]
      · exact hB3 e h
    · intro out
      simp [held_discipline]
    · intro s1 hs1
      refine stage_step_allP (held_discipline bsize tmax) _ _ _ _ _ ?_ ?_ ?_
      · obtain ⟨ΔC, hC1, hC2, hC3⟩ := search_trace _ (held_discipline bsize tmax) hevC
          tmin tmax ((quality / 2 : Nat) : Int) ((quality : Nat) : Int) fuel s1
        intro e he
        rw [hC1] at he
        rcases List.mem_append.mp he with h | h
        · exact hs1 e h
        · exact hC3 e h
      · intro out
        simp [held_discipline]
      · intro s2 hs2
        refine stage_step_allP (held_discipline bsize tmax) _ _ _ _ _ ?_ ?_ ?_
        · obtain ⟨ΔD, hD1, hD2, hD3⟩ := search_trace _ (held_discipline bsize tmax) hevD
            tmin tmax (1 : Int) ((final_frames.length / 2 : Nat) : Int) fuel s2
          intro e he
          rw [hD1] at he
          rcases List.mem_append.mp he with h | h
          · exact hs2 e h
          · exact hD3 e h
        · intro out
          simp [held_discipline]
        · intro s3 hs3
          refine stage_step_allP (held_discipline bsize tmax) _ _ _ _ _ ?_ ?_ ?_
          · obtain ⟨ΔE, hE1, hE2, hE3⟩ := search_trace _ (held_discipline bsize tmax) hevE
              tmin tmax (1 : Int) ((quality / 2 : Nat) : Int) fuel s3
            intro e he
            rw [hE1] at he
            rcases List.mem_append.mp he with h | h
            · exact hs3 e h
            · exact hE3 e h
          · intro out
            simp [held_discipline]
          · intro s4 hs4
            intro e he
            rcases List.mem_append.mp he with h | h
            · exact hs4 e h
            · rw [List.mem_singleton] at h
              subst h
              simp [held_discipline]

/-- C4 as stated is false: Stage A's trial produces a buffer (`614400`
bytes, over the cap), yet the held buffer right after the trial is still
`None` — the source holds Stage A's buffer only when
`current_size <= SIZE_TARGET_RANGE[1]` (line 270). -/
theorem held_buffer_discipline_cex :
    (convert enc_A_only id [0, 1] 80 399360 501760 100).2.head?
      = some (.trial .A [0, 1] 80 (some 614400) none)
    ∧ (some 614400 : Option Nat) ≠ none := by
  constructor
  · decide
  · decide

/-- Instantiation of `held_buffer_discipline` at a concrete run (2-frame
input, quality 2, always-over encoder, 50 fuel) and a concrete Stage B
evaluator trial: its produced buffer is exactly the held buffer after
it. -/
theorem held_buffer_discipline_witness :
    held_discipline (id : Nat → Nat) 501760
      (Ev.trial .B ([0] : List Nat) 2 (some 614400) (some 614400)) :=
  held_buffer_discipline enc_over id [0, 1] 2 399360 501760 50
    (Ev.trial .B [0] 2 (some 614400) (some 614400)) (by decide)

/-! ### C5: failure absorption and what is surfaced -/

/-- The held cell stays in sync with the last successful encode across a
whole `_binary_search`, for any evaluator that syncs it per step. -/
theorem search_sync {α β : Type} (ev : SState α β → Int → SState α β × Size)
    (hev : ∀ s n, ∃ Δ, ((ev s n).1).evs = s.evs ++ Δ
        ∧ ((ev s n).1).held = (lastRes Δ).or s.held
        ∧ ∀ e ∈ Δ, True)
    (tmin tmax : Nat) (low high : Int) (fuel : Nat) (s : SState α β)
    (hs : ∀ b, s.held = some b → lastRes s.evs = some b) :
    ∀ b, ((_binary_search ev tmin tmax low high fuel s).2.2).held = some b →
      lastRes ((_binary_search ev tmin tmax low high fuel s).2.2).evs = some b := by
  obtain ⟨Δ, h1, h2, -⟩ := search_trace ev (fun _ => True) hev tmin tmax low high fuel s
  intro b hb
  rw [h1, lastRes_append]
  rw [h2] at hb
  cases hΔ : lastRes Δ with
  | some x =>
    rw [hΔ] at hb
    simpa using hb
  | none =>
    rw [hΔ] at hb
    simp only [Option.none_or] at hb
    rw [Option.none_or]
    exact hs b hb

/-- C5 (amended): (1)–(2) a failed per-trial encode is absorbed by the
stage evaluators as the sentinel size `+∞` and leaves the held buffer
untouched; (3) an `+∞` size routes the search loop into the over-budget
branch (`high = mid - 1`); (4) the conversion is surfaced as buffer-less
(`ValueError` at source line 333) only when the final single-frame
quality-1 fallback was reached and its own encode also failed — which
entails Stage A was not accepted and every stage search found nothing.
(As stated, "only a total inability to produce any buffer is surfaced" is
false: a Stage A over-budget trial can produce a buffer that is then
dropped — see the counterexample.) -/
theorem failure_absorption_and_surface :
    (∀ (α β : Type) (enc : List α → Int → Option β) (bsize : β → Nat) (st : Stage)
        (fq : Int) (frames : List α) (s : SState α β) (n : Int),
        enc (select_frames frames n) fq = none →
        (size_4_this_frames enc bsize st fq frames s n).2 = ⊤
        ∧ ((size_4_this_frames enc bsize st fq frames s n).1).held = s.held)
  ∧ (∀ (α β : Type) (enc : List α → Int → Option β) (bsize : β → Nat) (st : Stage)
        (frames : List α) (s : SState α β) (qv : Int),
        enc frames qv = none →
        (size_4_this_quality enc bsize st frames s qv).2 = ⊤
        ∧ ((size_4_this_quality enc bsize st frames s qv).1).held = s.held)
  ∧ (∀ (σ : Type) (ev : σ → Int → σ × Size) (tmin tmax fuel : Nat)
        (low high : Int) (bv : Option Int) (bs : Size) (s : σ),
        ¬ low > high → (ev s (loop_mid low high)).2 = ⊤ →
        (_binary_search_loop ev tmin tmax (fuel+1) low high bv bs s).1
          = (_binary_search_loop ev tmin tmax fuel low (loop_mid low high - 1) bv bs
              (ev s (loop_mid low high)).1).1)
  ∧ (∀ (α β : Type) (enc : List α → Int → Option β) (bsize : β → Nat)
        (final_frames : List α) (quality tmin tmax fuel : Nat) (tr : List (Ev α β)),
        convert enc bsize final_frames quality tmin tmax fuel = (some none, tr) →
        ∃ fr, tr.getLast? = some (.trial .F fr 1 none none)) := by
  refine ⟨?_, ?_, ?_, ?_⟩
  · intro α β enc bsize st fq frames s n h
    unfold size_4_this_frames
    by_cases hemp : (select_frames frames n).isEmpty
    · rw [if_pos hemp]
      exact ⟨rfl, rfl⟩
    · rw [if_neg hemp, h]
      exact ⟨rfl, rfl⟩
  · intro α β enc bsize st frames s qv h
    unfold size_4_this_quality
    by_cases hemp : frames.isEmpty
    · rw [if_pos hemp]
      exact ⟨rfl, rfl⟩
    · rw [if_neg hemp, h]
      exact ⟨rfl, rfl⟩
  · intro σ ev tmin tmax fuel low high bv bs s hlh htop
    simp only [_binary_search_loop]
    rw [if_neg hlh, htop]
    rw [if_neg (fun hc => absurd hc.2 (by simp)), if_neg (by simp)]
  · intro α β enc bsize final_frames quality tmin tmax fuel tr h
    have h1 : (convert enc bsize final_frames quality tmin tmax fuel).1 = some none := by
      rw [h]
    have h2 : tr = (convert enc bsize final_frames quality tmin tmax fuel).2 := by
      rw [h]
    rw [h2]
    unfold convert at h1 ⊢
    simp only [] at h1 ⊢
    split at h1
    · rename_i hA
      simp only [Option.some.injEq] at h1
      rw [h1] at hA
      simp at hA
    · rename_i hA
      rw [if_neg hA]
      refine stage_step_failOK _ _ _ _ _ ?_ ?_ h1
      · exact fun out hout ht => search_found_held_some _
          (s4f_keep enc bsize .B _ final_frames) (s4f_fin enc bsize .B _ final_frames)
          tmin tmax _ _ fuel _ out hout ht
      · intro outB houtB htfB h1B
        refine stage_step_failOK _ _ _ _ _ ?_ ?_ h1B
        · exact fun out hout ht => search_found_held_some _
            (s4q_keep enc bsize .C _) (s4q_fin enc bsize .C _)
            tmin tmax _ _ fuel _ out hout ht
        · intro outC houtC htfC h1C
          refine stage_step_failOK _ _ _ _ _ ?_ ?_ h1C
          · exact fun out hout ht => search_found_held_some _
              (s4f_keep enc bsize .D _ _) (s4f_fin enc bsize .D _ _)
              tmin tmax _ _ fuel _ out hout ht
          · intro outD houtD htfD h1D
            refine stage_step_failOK _ _ _ _ _ ?_ ?_ h1D
            · exact fun out hout ht => search_found_held_some _
                (s4q_keep enc bsize .E _) (s4q_fin enc bsize .E _)
                tmin tmax _ _ fuel _ out hout ht
            · intro outE houtE htfE h1E
              simp only [Option.some.injEq] at h1E
              exact ⟨_, by rw [h1E, List.getLast?_concat]⟩

/-- C5 as stated is false: with an encoder that succeeds (over-cap) only
on Stage A's trial and fails everywhere else, a buffer *was* produced,
yet the conversion is surfaced as failed (`successful_buffer` is `None`
at the final save). -/
theorem failure_absorption_and_surface_cex :
    (convert enc_A_only id [0, 1] 80 399360 501760 100).1 = some none
    ∧ enc_A_only [0, 1] 80 = some 614400 := by
  constructor
  · decide
  · decide

/-- Instantiation of the surfacing half of
`failure_absorption_and_surface` at an always-failing encoder on a
2-frame input: the buffer-less failure coincides with a failed final
fallback trial. -/
theorem failure_absorption_and_surface_witness :
    ∃ fr, ((convert enc_fail id [0, 1] 80 399360 501760 100).2).getLast?
        = some (.trial .F fr 1 none none) :=
  failure_absorption_and_surface.2.2.2 Nat Nat enc_fail id [0, 1] 80 399360 501760 100
    (convert enc_fail id [0, 1] 80 399360 501760 100).2 (by decide)

/-! ### C6: the buffer that is finally written -/

/-- C6 (amended): when the conversion succeeds, the buffer finally
written is the *most recent* successful encode of the run — not
necessarily the best under-cap buffer: a stage's post-loop best-under
return leaves the `successful_buffer` cell at the stage's last successful
trial, which may even exceed the cap (see the counterexample). -/
theorem final_buffer_last_success {α β : Type} (enc : List α → Int → Option β)
    (bsize : β → Nat) (final_frames : List α) (quality tmin tmax fuel : Nat)
    (b : β) (tr : List (Ev α β))
    (h : convert enc bsize final_frames quality tmin tmax fuel = (some (some b), tr)) :
    lastRes tr = some b := by
  have h1 : (convert enc bsize final_frames quality tmin tmax fuel).1 = some (some b) := by
    rw [h]
  have h2 : tr = (convert enc bsize final_frames quality tmin tmax fuel).2 := by
    rw [h]
  rw [h2]
  unfold convert at h1 ⊢
  simp only [] at h1 ⊢
  split at h1
  · rename_i hA
    simp only [Option.some.injEq] at h1
    rw [if_pos hA]
    rw [lastRes_trial, h1]
  · rename_i hA
    rw [if_neg hA]
    refine stage_step_resOK _ _ _ _ _ ?_ ?_ b h1
    · refine search_sync _ ?_ tmin tmax _ _ fuel _ ?_
      · intro s n
        obtain ⟨Δ, e1, e2, -⟩ := s4f_spec enc bsize .B _ final_frames s n
        exact ⟨Δ, e1, e2, fun _ _ => trivial⟩
      · intro b0 hb0
        exact absurd hb0 (by simp)
    · intro s1 hs1
      refine stage_step_resOK _ _ _ _ _ ?_ ?_
      · refine search_sync _ ?_ tmin tmax _ _ fuel s1 hs1
        intro s n
        obtain ⟨Δ, e1, e2, -⟩ := s4q_spec enc bsize .C _ s n
        exact ⟨Δ, e1, e2, fun _ _ => trivial⟩
      · intro s2 hs2
        refine stage_step_resOK _ _ _ _ _ ?_ ?_
        · refine search_sync _ ?_ tmin tmax _ _ fuel s2 hs2
          intro s n
          obtain ⟨Δ, e1, e2, -⟩ := s4f_spec enc bsize .D _ _ s n
          exact ⟨Δ, e1, e2, fun _ _ => trivial⟩
        · intro s3 hs3
          refine stage_step_resOK _ _ _ _ _ ?_ ?_
          · refine search_sync _ ?_ tmin tmax _ _ fuel s3 hs3
            intro s n
            obtain ⟨Δ, e1, e2, -⟩ := s4q_spec enc bsize .E _ s n
            exact ⟨Δ, e1, e2, fun _ _ => trivial⟩
          · intro s4 hs4 b4 hb4
            simp only [Option.some.injEq] at hb4
            rw [lastRes_append, lastRes_trial, hb4]
            simp

/-- C6 as stated is false: no stage lands inside the window, an under-cap
buffer (`100000` bytes) was produced, the conversion does not fail — but
the buffer finally written is `614400` bytes, which *exceeds*
`targetRange.max = 501760`. -/
theorem final_buffer_last_success_cex :
    (convert enc_last_over id [0, 1, 2, 3] 80 399360 501760 100).1 = some (some 614400)
    ∧ ¬ (614400 ≤ 501760)
    ∧ Ev.trial .B [0, 1, 3] 80 (some 100000) (some 100000)
        ∈ (convert enc_last_over id [0, 1, 2, 3] 80 399360 501760 100).2
    ∧ 100000 ≤ 501760 := by
  refine ⟨by decide, by decide, by decide, by decide⟩

/-- Instantiation of `final_buffer_last_success` at the same concrete
run: the written buffer is the most recent successful encode. -/
theorem final_buffer_last_success_witness :
    lastRes ((convert enc_last_over id [0, 1, 2, 3] 80 399360 501760 100).2) = some 614400 :=
  final_buffer_last_success enc_last_over id [0, 1, 2, 3] 80 399360 501760 100 614400
    (convert enc_last_over id [0, 1, 2, 3] 80 399360 501760 100).2 (by decide)

/-! ### C7: the fallback cascade -/

/-- A block of trial events contributes no search events. -/
theorem search_events_nil_of_trials {α β : Type} (Δ : List (Ev α β))
    (h : ∀ e ∈ Δ, is_trial e) : search_events Δ = [] := by
  induction Δ with
  | nil => rfl
  | cons e t ih =>
    rcases e with e | e
    · unfold search_events at ih ⊢
      rw [List.filterMap_cons]
      simp only []
      exact ih (fun x hx => h x (List.mem_cons_of_mem _ hx))
    · exact absurd (h _ (List.mem_cons_self _ _)) (by simp [is_trial])

/-- Appending a stage's trial block and its search record extends the
search-event history by exactly that one record. -/
theorem search_events_state {α β : Type} (evs Δ : List (Ev α β)) (st : Stage)
    (lo hi : Int) (out : Option (Int × Size))
    (base : List (Stage × Int × Int × Option (Int × Size)))
    (h1 : ∀ e ∈ Δ, is_trial e) (hbase : search_events evs = base) :
    search_events ((evs ++ Δ) ++ [.search st lo hi out]) = base ++ [(st, lo, hi, out)] := by
  rw [search_events_append, search_events_append, search_events_nil_of_trials Δ h1, hbase]
  simp [search_events]

/-- The tail of the cascade from Stage E onward: either Stage E finds a
(truthy) value, or its search comes back empty and the unconditional
single-frame quality-1 fallback trial runs last. -/
theorem C7_tail_E {α β : Type} (enc : List α → Int → Option β) (bsize : β → Nat)
    (final_frames : List α) (quality tmin tmax fuel : Nat)
    (s3 : SState α β) (base : List (Stage × Int × Int × Option (Int × Size)))
    (res : Option β)
    (hSE : search_events s3.evs = base)
    (hn : 2 ≤ final_frames.length)
    (x : Option (Option β) × List (Ev α β))
    (hx : x = stage_step
        (_binary_search (size_4_this_quality enc bsize .E
            (select_frames (select_frames final_frames ((final_frames.length / 2 : Nat) : Int)) 1))
          tmin tmax 1 ((quality / 2 : Nat) : Int) fuel s3)
        .E 1 ((quality / 2 : Nat) : Int)
        (fun s4 =>
          (some (enc (select_frames (select_frames final_frames
              ((final_frames.length / 2 : Nat) : Int)) 1) 1),
            s4.evs ++ [Ev.trial .F (select_frames (select_frames final_frames
                ((final_frames.length / 2 : Nat) : Int)) 1) 1
              (enc (select_frames (select_frames final_frames
                ((final_frames.length / 2 : Nat) : Int)) 1) 1)
              (enc (select_frames (select_frames final_frames
                ((final_frames.length / 2 : Nat) : Int)) 1) 1)])))
    (h1 : x.1 = some res) :
    (∃ v sz, search_events x.2
        = base ++ [(.E, 1, ((quality / 2 : Nat) : Int), some (v, sz))])
    ∨ (search_events x.2 = base ++ [(.E, 1, ((quality / 2 : Nat) : Int), none)]
       ∧ (∃ rF, x.2.getLast? = some (.trial .F
            (select_frames (select_frames final_frames
              ((final_frames.length / 2 : Nat) : Int)) 1) 1 rF rF))
       ∧ (select_frames (select_frames final_frames
            ((final_frames.length / 2 : Nat) : Int)) 1).length = 1) := by
  have hisE : ∀ (s : SState α β) n, ∃ Δ,
      ((size_4_this_quality enc bsize .E
          (select_frames (select_frames final_frames
            ((final_frames.length / 2 : Nat) : Int)) 1) s n).1).evs = s.evs ++ Δ
      ∧ ((size_4_this_quality enc bsize .E
          (select_frames (select_frames final_frames
            ((final_frames.length / 2 : Nat) : Int)) 1) s n).1).held = (lastRes Δ).or s.held
      ∧ ∀ e ∈ Δ, is_trial e := by
    intro s n
    obtain ⟨Δ, e1, e2, e3⟩ := s4q_spec enc bsize .E _ s n
    refine ⟨Δ, e1, e2, fun e he => ?_⟩
    obtain ⟨r0, ha, rfl, -⟩ := e3 e he
    simp [is_trial]
  have hfne : final_frames ≠ [] := by
    intro hc
    rw [hc] at hn
    simp at hn
  have hpiv : (1 : Int) ≤ ((final_frames.length / 2 : Nat) : Int) := by
    have : 1 ≤ final_frames.length / 2 := by omega
    exact_mod_cast this
  have hCne : select_frames final_frames ((final_frames.length / 2 : Nat) : Int) ≠ [] :=
    select_frames_ne_nil _ _ hpiv hfne
  subst hx
  rcases hE : (_binary_search (size_4_this_quality enc bsize .E
      (select_frames (select_frames final_frames ((final_frames.length / 2 : Nat) : Int)) 1))
      tmin tmax 1 ((quality / 2 : Nat) : Int) fuel s3).1 with _ | outE
  · rw [stage_step_none _ _ _ _ _ hE] at h1
    simp at h1
  · by_cases htE : truthy outE = true
    · rw [stage_step_found _ _ _ _ _ _ hE htE]
      left
      obtain ⟨v, sz, rfl, -⟩ := truthy_eq_some htE
      obtain ⟨ΔE, hE1, -, hE3⟩ := search_trace (size_4_this_quality enc bsize .E
          (select_frames (select_frames final_frames ((final_frames.length / 2 : Nat) : Int)) 1))
          is_trial hisE tmin tmax 1 ((quality / 2 : Nat) : Int) fuel s3
      refine ⟨v, sz, ?_⟩
      rw [hE1]
      exact search_events_state _ _ _ _ _ _ _ hE3 hSE
    · have hEn : outE = none := search_not_truthy_none _ tmin tmax _ _ fuel _
        (by omega) outE hE (by simpa using htE)
      subst hEn
      rw [stage_step_next _ _ _ _ _ _ hE rfl]
      simp only []
      right
      obtain ⟨ΔE, hE1, -, hE3⟩ := search_trace (size_4_this_quality enc bsize .E
          (select_frames (select_frames final_frames ((final_frames.length / 2 : Nat) : Int)) 1))
          is_trial hisE tmin tmax 1 ((quality / 2 : Nat) : Int) fuel s3
      refine ⟨?_, ⟨_, List.getLast?_concat _⟩, select_frames_one_length _ hCne⟩
      rw [search_events_append, hE1]
      rw [search_events_state _ _ _ _ _ _ _ hE3 hSE]
      simp [search_events]

/-- The tail of the cascade from Stage D onward. -/
theorem C7_tail_D {α β : Type} (enc : List α → Int → Option β) (bsize : β → Nat)
    (final_frames : List α) (quality tmin tmax fuel : Nat)
    (s2 : SState α β) (base : List (Stage × Int × Int × Option (Int × Size)))
    (res : Option β)
    (hSE : search_events s2.evs = base)
    (hn : 2 ≤ final_frames.length)
    (x : Option (Option β) × List (Ev α β))
    (hx : x = stage_step
        (_binary_search (size_4_this_frames enc bsize .D ((quality / 2 : Nat) : Int)
            (select_frames final_frames ((final_frames.length / 2 : Nat) : Int)))
          tmin tmax 1 ((final_frames.length / 2 : Nat) : Int) fuel s2)
        .D 1 ((final_frames.length / 2 : Nat) : Int)
        (fun s3 => stage_step
          (_binary_search (size_4_this_quality enc bsize .E
              (select_frames (select_frames final_frames
                ((final_frames.length / 2 : Nat) : Int)) 1))
            tmin tmax 1 ((quality / 2 : Nat) : Int) fuel s3)
          .E 1 ((quality / 2 : Nat) : Int)
          (fun s4 =>
            (some (enc (select_frames (select_frames final_frames
                ((final_frames.length / 2 : Nat) : Int)) 1) 1),
              s4.evs ++ [Ev.trial .F (select_frames (select_frames final_frames
                  ((final_frames.length / 2 : Nat) : Int)) 1) 1
                (enc (select_frames (select_frames final_frames
                  ((final_frames.length / 2 : Nat) : Int)) 1) 1)
                (enc (select_frames (select_frames final_frames
                  ((final_frames.length / 2 : Nat) : Int)) 1) 1)]))))
    (h1 : x.1 = some res) :
    (∃ v sz, search_events x.2
        = base ++ [(.D, 1, ((final_frames.length / 2 : Nat) : Int), some (v, sz))])
    ∨ (∃ v sz, search_events x.2
        = base ++ [(.D, 1, ((final_frames.length / 2 : Nat) : Int), none),
                   (.E, 1, ((quality / 2 : Nat) : Int), some (v, sz))])
    ∨ (search_events x.2
        = base ++ [(.D, 1, ((final_frames.length / 2 : Nat) : Int), none),
                   (.E, 1, ((quality / 2 : Nat) : Int), none)]
       ∧ (∃ rF, x.2.getLast? = some (.trial .F
            (select_frames (select_frames final_frames
              ((final_frames.length / 2 : Nat) : Int)) 1) 1 rF rF))
       ∧ (select_frames (select_frames final_frames
            ((final_frames.length / 2 : Nat) : Int)) 1).length = 1) := by
  have hisD : ∀ (s : SState α β) n, ∃ Δ,
      ((size_4_this_frames enc bsize .D ((quality / 2 : Nat) : Int)
          (select_frames final_frames ((final_frames.length / 2 : Nat) : Int)) s n).1).evs
        = s.evs ++ Δ
      ∧ ((size_4_this_frames enc bsize .D ((quality / 2 : Nat) : Int)
          (select_frames final_frames ((final_frames.length / 2 : Nat) : Int)) s n).1).held
        = (lastRes Δ).or s.held
      ∧ ∀ e ∈ Δ, is_trial e := by
    intro s n
    obtain ⟨Δ, e1, e2, e3⟩ := s4f_spec enc bsize .D _ _ s n
    refine ⟨Δ, e1, e2, fun e he => ?_⟩
    obtain ⟨fr, r0, ha, rfl, -⟩ := e3 e he
    simp [is_trial]
  subst hx
  rcases hD : (_binary_search (size_4_this_frames enc bsize .D ((quality / 2 : Nat) : Int)
      (select_frames final_frames ((final_frames.length / 2 : Nat) : Int)))
      tmin tmax 1 ((final_frames.length / 2 : Nat) : Int) fuel s2).1 with _ | outD
  · rw [stage_step_none _ _ _ _ _ hD] at h1
    simp at h1
  · by_cases htD : truthy outD = true
    · rw [stage_step_found _ _ _ _ _ _ hD htD]
      left
      obtain ⟨v, sz, rfl, -⟩ := truthy_eq_some htD
      obtain ⟨ΔD, hD1, -, hD3⟩ := search_trace (size_4_this_frames enc bsize .D
          ((quality / 2 : Nat) : Int)
          (select_frames final_frames ((final_frames.length / 2 : Nat) : Int)))
          is_trial hisD tmin tmax 1 ((final_frames.length / 2 : Nat) : Int) fuel s2
      refine ⟨v, sz, ?_⟩
      rw [hD1]
      exact search_events_state _ _ _ _ _ _ _ hD3 hSE
    · have hDn : outD = none := search_not_truthy_none _ tmin tmax _ _ fuel _
        (by omega) outD hD (by simpa using htD)
      subst hDn
      rw [stage_step_next _ _ _ _ _ _ hD rfl] at h1 ⊢
      try simp only [] at h1
      try simp only []
      obtain ⟨ΔD, hD1, -, hD3⟩ := search_trace (size_4_this_frames enc bsize .D
          ((quality / 2 : Nat) : Int)
          (select_frames final_frames ((final_frames.length / 2 : Nat) : Int)))
          is_trial hisD tmin tmax 1 ((final_frames.length / 2 : Nat) : Int) fuel s2
      have hSE3 : search_events ((⟨(_binary_search (size_4_this_frames enc bsize .D
          ((quality / 2 : Nat) : Int)
          (select_frames final_frames ((final_frames.length / 2 : Nat) : Int)))
          tmin tmax 1 ((final_frames.length / 2 : Nat) : Int) fuel s2).2.2.held,
          (_binary_search (size_4_this_frames enc bsize .D ((quality / 2 : Nat) : Int)
          (select_frames final_frames ((final_frames.length / 2 : Nat) : Int)))
          tmin tmax 1 ((final_frames.length / 2 : Nat) : Int) fuel s2).2.2.evs
            ++ [Ev.search .D 1 ((final_frames.length / 2 : Nat) : Int) none]⟩ :
          SState α β)).evs
          = base ++ [(.D, 1, ((final_frames.length / 2 : Nat) : Int), none)] := by
        rw [show ((⟨(_binary_search (size_4_this_frames enc bsize .D
            ((quality / 2 : Nat) : Int)
            (select_frames final_frames ((final_frames.length / 2 : Nat) : Int)))
            tmin tmax 1 ((final_frames.length / 2 : Nat) : Int) fuel s2).2.2.held,
            (_binary_search (size_4_this_frames enc bsize .D ((quality / 2 : Nat) : Int)
            (select_frames final_frames ((final_frames.length / 2 : Nat) : Int)))
            tmin tmax 1 ((final_frames.length / 2 : Nat) : Int) fuel s2).2.2.evs
              ++ [Ev.search .D 1 ((final_frames.length / 2 : Nat) : Int) none]⟩ :
            SState α β)).evs
            = (_binary_search (size_4_this_frames enc bsize .D ((quality / 2 : Nat) : Int)
            (select_frames final_frames ((final_frames.length / 2 : Nat) : Int)))
            tmin tmax 1 ((final_frames.length / 2 : Nat) : Int) fuel s2).2.2.evs
              ++ [Ev.search .D 1 ((final_frames.length / 2 : Nat) : Int) none] from rfl]
        rw [hD1]
        exact search_events_state _ _ _ _ _ _ _ hD3 hSE
      rcases C7_tail_E enc bsize final_frames quality tmin tmax fuel _ _ res hSE3 hn _ rfl h1
        with ⟨v, sz, h⟩ | ⟨hse, hlast, hlen⟩
      · right; left
        refine ⟨v, sz, ?_⟩
        rw [h, List.append_assoc]
        rfl
      · right; right
        refine ⟨?_, hlast, hlen⟩
        rw [hse, List.append_assoc]
        rfl

/-- The tail of the cascade from Stage C onward. -/
theorem C7_tail_C {α β : Type} (enc : List α → Int → Option β) (bsize : β → Nat)
    (final_frames : List α) (quality tmin tmax fuel : Nat)
    (s1 : SState α β) (base : List (Stage × Int × Int × Option (Int × Size)))
    (res : Option β)
    (hSE : search_events s1.evs = base)
    (hn : 2 ≤ final_frames.length)
    (x : Option (Option β) × List (Ev α β))
    (hx : x = stage_step
        (_binary_search (size_4_this_quality enc bsize .C
            (select_frames final_frames ((final_frames.length / 2 : Nat) : Int)))
          tmin tmax ((quality / 2 : Nat) : Int) (quality : Int) fuel s1)
        .C ((quality / 2 : Nat) : Int) (quality : Int)
        (fun s2 => stage_step
          (_binary_search (size_4_this_frames enc bsize .D ((quality / 2 : Nat) : Int)
              (select_frames final_frames ((final_frames.length / 2 : Nat) : Int)))
            tmin tmax 1 ((final_frames.length / 2 : Nat) : Int) fuel s2)
          .D 1 ((final_frames.length / 2 : Nat) : Int)
          (fun s3 => stage_step
            (_binary_search (size_4_this_quality enc bsize .E
                (select_frames (select_frames final_frames
                  ((final_frames.length / 2 : Nat) : Int)) 1))
              tmin tmax 1 ((quality / 2 : Nat) : Int) fuel s3)
            .E 1 ((quality / 2 : Nat) : Int)
            (fun s4 =>
              (some (enc (select_frames (select_frames final_frames
                  ((final_frames.length / 2 : Nat) : Int)) 1) 1),
                s4.evs ++ [Ev.trial .F (select_frames (select_frames final_frames
                    ((final_frames.length / 2 : Nat) : Int)) 1) 1
                  (enc (select_frames (select_frames final_frames
                    ((final_frames.length / 2 : Nat) : Int)) 1) 1)
                  (enc (select_frames (select_frames final_frames
                    ((final_frames.length / 2 : Nat) : Int)) 1) 1)])))))
    (h1 : x.1 = some res) :
    (∃ v sz, search_events x.2
        = base ++ [(.C, ((quality / 2 : Nat) : Int), (quality : Int), some (v, sz))])
    ∨ (∃ v sz, search_events x.2
        = base ++ [(.C, ((quality / 2 : Nat) : Int), (quality : Int), none),
                   (.D, 1, ((final_frames.length / 2 : Nat) : Int), some (v, sz))])
    ∨ (∃ v sz, search_events x.2
        = base ++ [(.C, ((quality / 2 : Nat) : Int), (quality : Int), none),
                   (.D, 1, ((final_frames.length / 2 : Nat) : Int), none),
                   (.E, 1, ((quality / 2 : Nat) : Int), some (v, sz))])
    ∨ (search_events x.2
        = base ++ [(.C, ((quality / 2 : Nat) : Int), (quality : Int), none),
                   (.D, 1, ((final_frames.length / 2 : Nat) : Int), none),
                   (.E, 1, ((quality / 2 : Nat) : Int), none)]
       ∧ (∃ rF, x.2.getLast? = some (.trial .F
            (select_frames (select_frames final_frames
              ((final_frames.length / 2 : Nat) : Int)) 1) 1 rF rF))
       ∧ (select_frames (select_frames final_frames
            ((final_frames.length / 2 : Nat) : Int)) 1).length = 1) := by
  have hisC : ∀ (s : SState α β) n, ∃ Δ,
      ((size_4_this_quality enc bsize .C
          (select_frames final_frames ((final_frames.length / 2 : Nat) : Int)) s n).1).evs
        = s.evs ++ Δ
      ∧ ((size_4_this_quality enc bsize .C
          (select_frames final_frames ((final_frames.length / 2 : Nat) : Int)) s n).1).held
        = (lastRes Δ).or s.held
      ∧ ∀ e ∈ Δ, is_trial e := by
    intro s n
    obtain ⟨Δ, e1, e2, e3⟩ := s4q_spec enc bsize .C _ s n
    refine ⟨Δ, e1, e2, fun e he => ?_⟩
    obtain ⟨r0, ha, rfl, -⟩ := e3 e he
    simp [is_trial]
  subst hx
  rcases hC : (_binary_search (size_4_this_quality enc bsize .C
      (select_frames final_frames ((final_frames.length / 2 : Nat) : Int)))
      tmin tmax ((quality / 2 : Nat) : Int) (quality : Int) fuel s1).1 with _ | outC
  · rw [stage_step_none _ _ _ _ _ hC] at h1
    simp at h1
  · by_cases htC : truthy outC = true
    · rw [stage_step_found _ _ _ _ _ _ hC htC]
      left
      obtain ⟨v, sz, rfl, -⟩ := truthy_eq_some htC
      obtain ⟨ΔC, hC1, -, hC3⟩ := search_trace (size_4_this_quality enc bsize .C
          (select_frames final_frames ((final_frames.length / 2 : Nat) : Int)))
          is_trial hisC tmin tmax ((quality / 2 : Nat) : Int) (quality : Int) fuel s1
      refine ⟨v, sz, ?_⟩
      rw [hC1]
      exact search_events_state _ _ _ _ _ _ _ hC3 hSE
    · have hCn : outC = none := search_not_truthy_none _ tmin tmax _ _ fuel _
        (Int.natCast_nonneg _) outC hC (by simpa using htC)
      subst hCn
      rw [stage_step_next _ _ _ _ _ _ hC rfl] at h1 ⊢
      try simp only [] at h1
      try simp only []
      obtain ⟨ΔC, hC1, -, hC3⟩ := search_trace (size_4_this_quality enc bsize .C
          (select_frames final_frames ((final_frames.length / 2 : Nat) : Int)))
          is_trial hisC tmin tmax ((quality / 2 : Nat) : Int) (quality : Int) fuel s1
      have hSE2 : search_events ((⟨(_binary_search (size_4_this_quality enc bsize .C
          (select_frames final_frames ((final_frames.length / 2 : Nat) : Int)))
          tmin tmax ((quality / 2 : Nat) : Int) (quality : Int) fuel s1).2.2.held,
          (_binary_search (size_4_this_quality enc bsize .C
          (select_frames final_frames ((final_frames.length / 2 : Nat) : Int)))
          tmin tmax ((quality / 2 : Nat) : Int) (quality : Int) fuel s1).2.2.evs
            ++ [Ev.search .C ((quality / 2 : Nat) : Int) (quality : Int) none]⟩ :
          SState α β)).evs
          = base ++ [(.C, ((quality / 2 : Nat) : Int), (quality : Int), none)] := by
        rw [show ((⟨(_binary_search (size_4_this_quality enc bsize .C
            (select_frames final_frames ((final_frames.length / 2 : Nat) : Int)))
            tmin tmax ((quality / 2 : Nat) : Int) (quality : Int) fuel s1).2.2.held,
            (_binary_search (size_4_this_quality enc bsize .C
            (select_frames final_frames ((final_frames.length / 2 : Nat) : Int)))
            tmin tmax ((quality / 2 : Nat) : Int) (quality : Int) fuel s1).2.2.evs
              ++ [Ev.search .C ((quality / 2 : Nat) : Int) (quality : Int) none]⟩ :
            SState α β)).evs
            = (_binary_search (size_4_this_quality enc bsize .C
            (select_frames final_frames ((final_frames.length / 2 : Nat) : Int)))
            tmin tmax ((quality / 2 : Nat) : Int) (quality : Int) fuel s1).2.2.evs
              ++ [Ev.search .C ((quality / 2 : Nat) : Int) (quality : Int) none] from rfl]
        rw [hC1]
        exact search_events_state _ _ _ _ _ _ _ hC3 hSE
      rcases C7_tail_D enc bsize final_frames quality tmin tmax fuel _ _ res hSE2 hn _ rfl h1
        with ⟨v, sz, h⟩ | ⟨v, sz, h⟩ | ⟨hse, hlast, hlen⟩
      · right; left
        refine ⟨v, sz, ?_⟩
        rw [h, List.append_assoc]
        rfl
      · right; right; left
        refine ⟨v, sz, ?_⟩
        rw [h, List.append_assoc]
        rfl
      · right; right; right
        refine ⟨?_, hlast, hlen⟩
        rw [hse, List.append_assoc]
        rfl

/-- C7: when Stage A's single trial exceeds the size window, the
orchestrator performs exactly the fallback cascade, each stage triggered
only if the previous one found nothing: Stage B searches frame count in
`[cap/2, cap]` at the requested quality; Stage C searches quality in
`[requested/2, requested]` at `cap/2` frames; Stage D searches frame
count in `[1, cap/2]` at quality `requested/2`; Stage E searches quality
in `[1, requested/2]` at 1 frame; finally an unconditional single trial
at 1 frame and quality 1 — where `cap` is the actual available frame
count (the decoded list, already truncated to the configured cap). -/
theorem stage_cascade {α β : Type} (enc : List α → Int → Option β) (bsize : β → Nat)
    (final_frames : List α) (quality tmin tmax fuel : Nat) (res : Option β)
    (hA : ((tmax : Nat) : Size) < stage_A_size enc bsize final_frames quality)
    (hn : 2 ≤ final_frames.length)
    (h1 : (convert enc bsize final_frames quality tmin tmax fuel).1 = some res) :
    (∃ v sz, search_events (convert enc bsize final_frames quality tmin tmax fuel).2
        = [(.B, ((final_frames.length / 2 : Nat) : Int), (final_frames.length : Int),
            some (v, sz))])
    ∨ (∃ v sz, search_events (convert enc bsize final_frames quality tmin tmax fuel).2
        = [(.B, ((final_frames.length / 2 : Nat) : Int), (final_frames.length : Int), none),
           (.C, ((quality / 2 : Nat) : Int), (quality : Int), some (v, sz))])
    ∨ (∃ v sz, search_events (convert enc bsize final_frames quality tmin tmax fuel).2
        = [(.B, ((final_frames.length / 2 : Nat) : Int), (final_frames.length : Int), none),
           (.C, ((quality / 2 : Nat) : Int), (quality : Int), none),
           (.D, 1, ((final_frames.length / 2 : Nat) : Int), some (v, sz))])
    ∨ (∃ v sz, search_events (convert enc bsize final_frames quality tmin tmax fuel).2
        = [(.B, ((final_frames.length / 2 : Nat) : Int), (final_frames.length : Int), none),
           (.C, ((quality / 2 : Nat) : Int), (quality : Int), none),
           (.D, 1, ((final_frames.length / 2 : Nat) : Int), none),
           (.E, 1, ((quality / 2 : Nat) : Int), some (v, sz))])
    ∨ (search_events (convert enc bsize final_frames quality tmin tmax fuel).2
        = [(.B, ((final_frames.length / 2 : Nat) : Int), (final_frames.length : Int), none),
           (.C, ((quality / 2 : Nat) : Int), (quality : Int), none),
           (.D, 1, ((final_frames.length / 2 : Nat) : Int), none),
           (.E, 1, ((quality / 2 : Nat) : Int), none)]
       ∧ (∃ rF, (convert enc bsize final_frames quality tmin tmax fuel).2.getLast?
            = some (.trial .F (select_frames (select_frames final_frames
                ((final_frames.length / 2 : Nat) : Int)) 1) 1 rF rF))
       ∧ (select_frames (select_frames final_frames
            ((final_frames.length / 2 : Nat) : Int)) 1).length = 1) := by
  have hA' : ¬ ((match enc final_frames ((quality : Nat) : Int) with
      | some b => ((bsize b : Nat) : Size)
      | none => (⊤ : Size)) ≤ ((tmax : Nat) : Size)) := not_le.mpr hA
  have hx : convert enc bsize final_frames quality tmin tmax fuel
      = stage_step
          (_binary_search (size_4_this_frames enc bsize .B ((quality : Nat) : Int) final_frames)
            tmin tmax ((final_frames.length / 2 : Nat) : Int) ((final_frames.length : Nat) : Int)
            fuel
            ⟨none, [Ev.trial .A final_frames ((quality : Nat) : Int)
              (enc final_frames ((quality : Nat) : Int)) none]⟩)
          .B ((final_frames.length / 2 : Nat) : Int) ((final_frames.length : Nat) : Int)
          (fun s1 => stage_step
            (_binary_search (size_4_this_quality enc bsize .C
                (select_frames final_frames ((final_frames.length / 2 : Nat) : Int)))
              tmin tmax ((quality / 2 : Nat) : Int) (quality : Int) fuel s1)
            .C ((quality / 2 : Nat) : Int) (quality : Int)
            (fun s2 => stage_step
              (_binary_search (size_4_this_frames enc bsize .D ((quality / 2 : Nat) : Int)
                  (select_frames final_frames ((final_frames.length / 2 : Nat) : Int)))
                tmin tmax 1 ((final_frames.length / 2 : Nat) : Int) fuel s2)
              .D 1 ((final_frames.length / 2 : Nat) : Int)
              (fun s3 => stage_step
                (_binary_search (size_4_this_quality enc bsize .E
                    (select_frames (select_frames final_frames
                      ((final_frames.length / 2 : Nat) : Int)) 1))
                  tmin tmax 1 ((quality / 2 : Nat) : Int) fuel s3)
                .E 1 ((quality / 2 : Nat) : Int)
                (fun s4 =>
                  (some (enc (select_frames (select_frames final_frames
                      ((final_frames.length / 2 : Nat) : Int)) 1) 1),
                    s4.evs ++ [Ev.trial .F (select_frames (select_frames final_frames
                        ((final_frames.length / 2 : Nat) : Int)) 1) 1
                      (enc (select_frames (select_frames final_frames
                        ((final_frames.length / 2 : Nat) : Int)) 1) 1)
                      (enc (select_frames (select_frames final_frames
                        ((final_frames.length / 2 : Nat) : Int)) 1) 1)]))))) := by
    unfold convert
    simp only []
    exact if_neg hA'
  rw [hx] at h1 ⊢
  have hisB : ∀ (s : SState α β) n, ∃ Δ,
      ((size_4_this_frames enc bsize .B ((quality : Nat) : Int) final_frames s n).1).evs
        = s.evs ++ Δ
      ∧ ((size_4_this_frames enc bsize .B ((quality : Nat) : Int) final_frames s n).1).held
        = (lastRes Δ).or s.held
      ∧ ∀ e ∈ Δ, is_trial e := by
    intro s n
    obtain ⟨Δ, e1, e2, e3⟩ := s4f_spec enc bsize .B _ _ s n
    refine ⟨Δ, e1, e2, fun e he => ?_⟩
    obtain ⟨fr, r0, ha, rfl, -⟩ := e3 e he
    simp [is_trial]
  have hSE0 : search_events (([Ev.trial .A final_frames ((quality : Nat) : Int)
      (enc final_frames ((quality : Nat) : Int)) none]) : List (Ev α β)) = [] := by
    simp [search_events]
  rcases hB : (_binary_search (size_4_this_frames enc bsize .B ((quality : Nat) : Int)
      final_frames) tmin tmax ((final_frames.length / 2 : Nat) : Int)
      ((final_frames.length : Nat) : Int) fuel
      ⟨none, [Ev.trial .A final_frames ((quality : Nat) : Int)
        (enc final_frames ((quality : Nat) : Int)) none]⟩).1 with _ | outB
  · rw [stage_step_none _ _ _ _ _ hB] at h1
    simp at h1
  · by_cases htB : truthy outB = true
    · rw [stage_step_found _ _ _ _ _ _ hB htB]
      left
      obtain ⟨v, sz, rfl, -⟩ := truthy_eq_some htB
      obtain ⟨ΔB, hB1, -, hB3⟩ := search_trace
          (size_4_this_frames enc bsize .B ((quality : Nat) : Int) final_frames)
          is_trial hisB tmin tmax ((final_frames.length / 2 : Nat) : Int)
          ((final_frames.length : Nat) : Int) fuel
          ⟨none, [Ev.trial .A final_frames ((quality : Nat) : Int)
            (enc final_frames ((quality : Nat) : Int)) none]⟩
      refine ⟨v, sz, ?_⟩
      rw [hB1]
      exact search_events_state _ _ _ _ _ _ _ hB3 hSE0
    · have hBn : outB = none := search_not_truthy_none _ tmin tmax _ _ fuel _
        (Int.natCast_nonneg _) outB hB (by simpa using htB)
      subst hBn
      rw [stage_step_next _ _ _ _ _ _ hB rfl] at h1 ⊢
      try simp only [] at h1
      try simp only []
      obtain ⟨ΔB, hB1, -, hB3⟩ := search_trace
          (size_4_this_frames enc bsize .B ((quality : Nat) : Int) final_frames)
          is_trial hisB tmin tmax ((final_frames.length / 2 : Nat) : Int)
          ((final_frames.length : Nat) : Int) fuel
          ⟨none, [Ev.trial .A final_frames ((quality : Nat) : Int)
            (enc final_frames ((quality : Nat) : Int)) none]⟩
      have hSE1 : search_events ((⟨(_binary_search (size_4_this_frames enc bsize .B
          ((quality : Nat) : Int) final_frames) tmin tmax
          ((final_frames.length / 2 : Nat) : Int) ((final_frames.length : Nat) : Int) fuel
          ⟨none, [Ev.trial .A final_frames ((quality : Nat) : Int)
            (enc final_frames ((quality : Nat) : Int)) none]⟩).2.2.held,
          (_binary_search (size_4_this_frames enc bsize .B ((quality : Nat) : Int) final_frames)
          tmin tmax ((final_frames.length / 2 : Nat) : Int) ((final_frames.length : Nat) : Int)
          fuel ⟨none, [Ev.trial .A final_frames ((quality : Nat) : Int)
            (enc final_frames ((quality : Nat) : Int)) none]⟩).2.2.evs
            ++ [Ev.search .B ((final_frames.length / 2 : Nat) : Int)
              ((final_frames.length : Nat) : Int) none]⟩ : SState α β)).evs
          = [(.B, ((final_frames.length / 2 : Nat) : Int),
              ((final_frames.length : Nat) : Int), none)] := by
        rw [show ((⟨(_binary_search (size_4_this_frames enc bsize .B
            ((quality : Nat) : Int) final_frames) tmin tmax
            ((final_frames.length / 2 : Nat) : Int) ((final_frames.length : Nat) : Int) fuel
            ⟨none, [Ev.trial .A final_frames ((quality : Nat) : Int)
              (enc final_frames ((quality : Nat) : Int)) none]⟩).2.2.held,
            (_binary_search (size_4_this_frames enc bsize .B ((quality : Nat) : Int)
            final_frames) tmin tmax ((final_frames.length / 2 : Nat) : Int)
            ((final_frames.length : Nat) : Int) fuel
            ⟨none, [Ev.trial .A final_frames ((quality : Nat) : Int)
              (enc final_frames ((quality : Nat) : Int)) none]⟩).2.2.evs
              ++ [Ev.search .B ((final_frames.length / 2 : Nat) : Int)
                ((final_frames.length : Nat) : Int) none]⟩ : SState α β)).evs
            = (_binary_search (size_4_this_frames enc bsize .B ((quality : Nat) : Int)
            final_frames) tmin tmax ((final_frames.length / 2 : Nat) : Int)
            ((final_frames.length : Nat) : Int) fuel
            ⟨none, [Ev.trial .A final_frames ((quality : Nat) : Int)
              (enc final_frames ((quality : Nat) : Int)) none]⟩).2.2.evs
              ++ [Ev.search .B ((final_frames.length / 2 : Nat) : Int)
                ((final_frames.length : Nat) : Int) none] from rfl]
        rw [hB1]
        exact search_events_state _ _ _ _ _ _ _ hB3 hSE0
      rcases C7_tail_C enc bsize final_frames quality tmin tmax fuel _ _ res hSE1 hn _ rfl h1
        with ⟨v, sz, h⟩ | ⟨v, sz, h⟩ | ⟨v, sz, h⟩ | ⟨hse, hlast, hlen⟩
      · right; left
        exact ⟨v, sz, h⟩
      · right; right; left
        exact ⟨v, sz, h⟩
      · right; right; right; left
        exact ⟨v, sz, h⟩
      · right; right; right; right
        exact ⟨hse, hlast, hlen⟩

/-- Instantiation of `stage_cascade` on a 2-frame video with an
always-over-budget encoder: Stage A over-shoots, Stages B–E all come back
empty, and the run lands in the final disjunct — the unconditional
single-frame quality-1 fallback trial. -/
theorem stage_cascade_witness :
    (((501760 : Nat) : Size) < stage_A_size enc_over id [0, 1] 2
     ∧ 2 ≤ ([0, 1] : List Nat).length
     ∧ (convert enc_over id [0, 1] 2 399360 501760 50).1 = some (some 614400))
    ∧ ((∃ v sz, search_events (convert enc_over id [0, 1] 2 399360 501760 50).2
          = [(.B, 1, 2, some (v, sz))])
      ∨ (∃ v sz, search_events (convert enc_over id [0, 1] 2 399360 501760 50).2
          = [(.B, 1, 2, none), (.C, 1, 2, some (v, sz))])
      ∨ (∃ v sz, search_events (convert enc_over id [0, 1] 2 399360 501760 50).2
          = [(.B, 1, 2, none), (.C, 1, 2, none), (.D, 1, 1, some (v, sz))])
      ∨ (∃ v sz, search_events (convert enc_over id [0, 1] 2 399360 501760 50).2
          = [(.B, 1, 2, none), (.C, 1, 2, none), (.D, 1, 1, none),
             (.E, 1, 1, some (v, sz))])
      ∨ (search_events (convert enc_over id [0, 1] 2 399360 501760 50).2
          = [(.B, 1, 2, none), (.C, 1, 2, none), (.D, 1, 1, none), (.E, 1, 1, none)]
         ∧ (∃ rF, (convert enc_over id [0, 1] 2 399360 501760 50).2.getLast?
              = some (.trial .F (select_frames (select_frames [0, 1] 1) 1) 1 rF rF))
         ∧ (select_frames (select_frames [0, 1] 1) 1).length = 1)) :=
  ⟨⟨by decide, by decide, by decide⟩,
   stage_cascade enc_over id [0, 1] 2 399360 501760 50 (some 614400)
     (by decide) (by decide) (by decide)⟩
